import Mathlib

/-!
# Verification of the `duck` monorepo orchestration engine

Shallow embedding of the core subsystems of the `duck` repository:

* `internal/resolver/resolver.go` — deterministic topological ordering
  (Kahn's algorithm), cycle detection, dangling-dependency detection;
* `internal/executor/executor.go` — script execution preparation
  (lookup, disabled check, variable substitution, environment
  composition), result finishing, sequential fail-fast batches;
* `internal/dependencyscanner/go/example_usage.go` — dependency
  enrichment by observed imports;
* `internal/cli/commands.go` — the app.yaml dependency sync writer.

Go `map[string]T` values are embedded as association lists
(`List (String × T)`); Go map iteration order is nondeterministic,
so list order stands for one arbitrary iteration order and
determinism statements quantify over permutations of the list.
-/

namespace Duck

/-! ## Go string comparison

Go compares strings bytewise; on valid UTF-8 that order coincides with
the lexicographic order of the code-point sequences, which is what
`goStrLtB` computes on `String.data`. (Mathlib's `String` order is
iterator-based and does not reduce in the kernel, so the development
carries its own comparison.)
-/

/-- Lexicographic strict order on code-point sequences: the order
`sort.Strings` and Go's `<` on strings use (bytewise, which agrees
with code-point order on valid UTF-8). -/
def goStrLtB : List Char → List Char → Bool
  | [], [] => false
  | [], _ :: _ => true
  | _ :: _, [] => false
  | a :: as, b :: bs =>
      if a.toNat < b.toNat then true
      else if b.toNat < a.toNat then false
      else goStrLtB as bs

/-- Go `a < b` on strings. -/
def sLt (a b : String) : Bool := goStrLtB a.data b.data

/-- Go `a <= b` on strings (total order complement of `sLt`). -/
def sLe (a b : String) : Bool := !(sLt b a)

/-- `sLe` as a relation, for use with `List.insertionSort` and
`List.Sorted`. -/
def sleR (a b : String) : Prop := sLe a b = true

instance : DecidableRel sleR := fun a b => by
  unfold sleR; infer_instance

theorem goStrLtB_irrefl : ∀ a, goStrLtB a a = false := by
  intro a
  induction a with
  | nil => rfl
  | cons c cs ih => simp [goStrLtB, ih]

theorem goStrLtB_trans : ∀ a b c, goStrLtB a b = true → goStrLtB b c = true →
    goStrLtB a c = true := by
  intro a
  induction a with
  | nil =>
    intro b c hab hbc
    cases b with
    | nil => simp [goStrLtB] at hab
    | cons y ys =>
      cases c with
      | nil => simp [goStrLtB] at hbc
      | cons z zs => simp [goStrLtB]
  | cons x xs ih =>
    intro b c hab hbc
    cases b with
    | nil => simp [goStrLtB] at hab
    | cons y ys =>
      cases c with
      | nil => simp [goStrLtB] at hbc
      | cons z zs =>
        simp only [goStrLtB] at hab hbc ⊢
        by_cases hxy : x.toNat < y.toNat
        · by_cases hyz : y.toNat < z.toNat
          · simp [show x.toNat < z.toNat by omega]
          · simp [hyz] at hbc
            rcases hbc with ⟨hzy, _⟩
            simp [show x.toNat < z.toNat by omega]
        · simp [hxy] at hab
          rcases hab with ⟨hyx, hab⟩
          by_cases hyz : y.toNat < z.toNat
          · simp [show x.toNat < z.toNat by omega]
          · simp [hyz] at hbc
            rcases hbc with ⟨hzy, hbc⟩
            have hxz : ¬ x.toNat < z.toNat := by omega
            simp [hxz, show ¬ z.toNat < x.toNat by omega]
            exact ih _ _ hab hbc

theorem goStrLtB_eq_of_not : ∀ a b, goStrLtB a b = false → goStrLtB b a = false →
    a = b := by
  intro a
  induction a with
  | nil =>
    intro b hab _
    cases b with
    | nil => rfl
    | cons y ys => simp [goStrLtB] at hab
  | cons x xs ih =>
    intro b hab hba
    cases b with
    | nil => simp [goStrLtB] at hba
    | cons y ys =>
      simp only [goStrLtB] at hab hba
      by_cases hxy : x.toNat < y.toNat
      · simp [hxy] at hab
      · by_cases hyx : y.toNat < x.toNat
        · simp [hyx, hxy] at hba
        · simp [hxy, hyx] at hab hba
          have hx : x = y := Char.ext (UInt32.ext (by
            change x.toNat = y.toNat
            omega))
          rw [hx, ih ys hab hba]

theorem goStrLtB_asymm : ∀ a b, goStrLtB a b = true → goStrLtB b a = false := by
  intro a b hab
  by_contra hc
  simp only [Bool.not_eq_false] at hc
  have := goStrLtB_trans _ _ _ hab hc
  simp [goStrLtB_irrefl] at this

instance : IsTotal String sleR := by
  constructor
  intro a b
  unfold sleR sLe sLt
  by_cases h : goStrLtB b.data a.data = true
  · right
    simp [goStrLtB_asymm _ _ h]
  · left
    simp only [Bool.not_eq_true] at h
    simp [h]

instance : IsTrans String sleR := by
  constructor
  intro a b c hab hbc
  unfold sleR sLe sLt at hab hbc ⊢
  simp only [Bool.not_eq_true'] at hab hbc ⊢
  by_cases hbc' : goStrLtB b.data c.data = true
  · by_cases hc : goStrLtB c.data a.data = true
    · have := goStrLtB_trans _ _ _ hbc' hc
      rw [this] at hab
      exact absurd hab (by simp)
    · simpa using hc
  · simp only [Bool.not_eq_true] at hbc'
    have hbceq : b.data = c.data := goStrLtB_eq_of_not _ _ hbc' hbc
    rw [← hbceq]
    exact hab

instance : IsAntisymm String sleR := by
  constructor
  intro a b hab hba
  unfold sleR sLe sLt at hab hba
  simp only [Bool.not_eq_true'] at hab hba
  exact String.ext (goStrLtB_eq_of_not _ _ hba hab)

instance : IsRefl String sleR := by
  constructor
  intro a
  unfold sleR sLe sLt
  simp [goStrLtB_irrefl]

theorem sLt_iff_not_sleR {a b : String} : sLt a b = true ↔ ¬ sleR b a := by
  unfold sleR sLe
  simp

/-- Sorting with `sleR` — the embedding of `sort.Strings` (any sorted
permutation of the input; sorted lists over a total antisymmetric order
are unique up to the multiset, so `insertionSort` matches Go's sort). -/
def goSortStrings (l : List String) : List String := List.insertionSort sleR l

/-! ## Resolver: data model (`internal/resolver/resolver.go`)

A project map is embedded as an association list from project key to
the project's declared dependency keys (`project.Config.Dependencies`).
Only the dependency list of a project record is consulted by the
resolver, so the embedding keeps just that field.
-/

/-- Project key → declared dependency keys, one entry per project in
the Go map `r.projects` (iteration order of the map is the list order). -/
abbrev Projects := List (String × List String)

/-- The keys of the project map, in iteration order. -/
def projKeys (ps : Projects) : List String := ps.map Prod.fst

/-- `r.projects[k].Config.Dependencies` — the declared dependencies of
project `k` (`[]` when `k` is not a key of the map). -/
def depsOf (ps : Projects) (k : String) : List String :=
  (ps.lookup k).getD []

/-- Errors returned by `ResolveExecutionOrder`. -/
inductive ResolverErr where
  | dangling (proj dep : String)
  | circular
deriving DecidableEq, Repr

/-- The `fmt.Errorf` message attached to each resolver error. -/
def ResolverErr.message : ResolverErr → String
  | .dangling proj dep =>
      "project " ++ proj ++ " depends on " ++ dep ++ ", but " ++ dep ++
        " was not found"
  | .circular => "circular dependency detected"

/-- `ResolutionResult`: execution order plus the per-project direct
dependency lists (`result.Dependencies`, a Go map embedded as a
function; keys absent from the map read as `[]`). -/
structure ResolutionResult where
  executionOrder : List String
  dependencies : String → List String

/-! ## Resolver: Kahn's algorithm embedding

`ResolveExecutionOrder` (resolver.go lines 25–93):

* the dangling check is the first failing `(key, dep)` pair found while
  ranging over the project map;
* `graph[dep]` collects the dependents of `dep`; before use the code
  sorts it (`sort.Strings(dependents)`), so the embedding produces
  the sorted dependent list directly with `goSortStrings`;
* `inDegree` is embedded as a total function `String → Int`
  (Go map reads of absent keys yield `0`);
* the ready queue is kept sorted by the explicit insertion loop at
  lines 73–83, embedded as `goQueueInsert`;
* the `for len(queue) > 0` loop is embedded with a fuel parameter
  large enough that it never runs out (each loop iteration consumes
  one queue element, and at most `#keys + #edges` elements are ever
  inserted).
-/

/-- First `(key, dep)` pair, in map-iteration order, whose `dep` is
not a key of the project map (resolver.go lines 38–42). -/
def firstDangling (ps : Projects) : Option (String × String) :=
  (ps.flatMap fun p => p.2.map fun d => (p.1, d)).find?
    fun kd => ¬ (projKeys ps).contains kd.2

/-- The sorted dependents `sort.Strings(graph[current])`: one entry per
occurrence of `current` in a project's dependency list
(resolver.go lines 44, 67–68). -/
def sortedDependents (ps : Projects) (current : String) : List String :=
  goSortStrings
    (ps.flatMap fun p => (p.2.filter fun d => d == current).map fun _ => p.1)

/-- The queue insertion loop (resolver.go lines 73–83): insert before
the first strictly greater element, else append. -/
def goQueueInsert (x : String) : List String → List String
  | [] => [x]
  | y :: ys => if sLt x y then x :: y :: ys else y :: goQueueInsert x ys

/-- Processing of the dependents of a popped key (resolver.go lines
70–85): decrement each dependent's in-degree, inserting it into the
ready queue when the decremented in-degree is zero. -/
def processDependents :
    List String → List String × (String → Int) → List String × (String → Int)
  | [], st => st
  | k :: ks, (queue, inDeg) =>
      let d := inDeg k - 1
      let queue' := if d = 0 then goQueueInsert k queue else queue
      processDependents ks (queue', Function.update inDeg k d)

/-- The Kahn main loop (resolver.go lines 61–86), appending each popped
key to the execution order. -/
def kahnLoop (ps : Projects) :
    Nat → List String → (String → Int) → List String → List String
  | 0, _, _, order => order
  | _ + 1, [], _, order => order
  | fuel + 1, current :: rest, inDeg, order =>
      let st := processDependents (sortedDependents ps current) (rest, inDeg)
      kahnLoop ps fuel st.1 st.2 (order ++ [current])

/-- Initial in-degree: one per declared dependency of the key
(resolver.go lines 33–36, 45). -/
def initInDeg (ps : Projects) : String → Int :=
  fun k => ((depsOf ps k).length : Int)

/-- The seeded ready queue: all zero-in-degree keys, sorted
(resolver.go lines 51–59). -/
def initQueue (ps : Projects) : List String :=
  goSortStrings ((ps.filter fun p => p.2.length = 0).map Prod.fst)

/-- Fuel that the Kahn loop can never exhaust: every queue element is
inserted at most once per seed or per edge decrement. -/
def kahnFuel (ps : Projects) : Nat :=
  ps.length + (ps.map fun p => p.2.length).sum + 1

/-- `ResolveExecutionOrder` (resolver.go lines 25–93). -/
def resolveExecutionOrder (ps : Projects) :
    Except ResolverErr ResolutionResult :=
  match firstDangling ps with
  | some (k, d) => .error (.dangling k d)
  | none =>
      let order := kahnLoop ps (kahnFuel ps) (initQueue ps) (initInDeg ps) []
      if order.length ≠ ps.length then .error .circular
      else .ok ⟨order, fun k => depsOf ps k⟩

/-- `ValidateDependencies` (resolver.go lines 111–114): the resolution
error, with the order discarded. -/
def validateDependencies (ps : Projects) : Option ResolverErr :=
  match resolveExecutionOrder ps with
  | .error e => some e
  | .ok _ => none

/-! ## Resolver: proof infrastructure

`sortedKeys`, `readyQueue` and `specInDeg` are proof-side
reformulations of the loop state: at every iteration the ready queue
is exactly the sorted list of unemitted keys all of whose dependencies
are emitted, and the in-degree of a key counts its unemitted
dependencies.
-/

theorem contains_iff {l : List String} {a : String} :
    l.contains a = true ↔ a ∈ l := List.elem_iff

theorem exists_pair_of_mem_projKeys {ps : Projects} {k : String}
    (h : k ∈ projKeys ps) : ∃ ds, (k, ds) ∈ ps := by
  rcases List.mem_map.mp h with ⟨p, hp, hk⟩
  exact ⟨p.2, by rwa [← hk]⟩

theorem depsOf_eq_of_mem {ps : Projects} {k : String} {ds : List String}
    (HK : (projKeys ps).Nodup) (h : (k, ds) ∈ ps) : depsOf ps k = ds := by
  induction ps with
  | nil => cases h
  | cons p t ih =>
    rcases List.mem_cons.mp h with h | h
    · subst h
      simp [depsOf, List.lookup]
    · have hk : k ∈ projKeys t := List.mem_map.mpr ⟨(k, ds), h, rfl⟩
      have hne : k ≠ p.1 := by
        intro he
        have := (List.nodup_cons.mp HK).1
        exact this (he ▸ hk)
      have hbeq : (k == p.1) = false := by
        simp
        exact hne
      show (List.lookup k (p :: t)).getD [] = ds
      rw [List.lookup, hbeq]
      exact ih (List.nodup_cons.mp HK).2 h

theorem depsOf_eq_nil_of_not_mem {ps : Projects} {k : String}
    (h : k ∉ projKeys ps) : depsOf ps k = [] := by
  induction ps with
  | nil => rfl
  | cons p t ih =>
    have h1 : k ≠ p.1 := fun he => h (by simp [projKeys, he])
    have h2 : k ∉ projKeys t := fun hm => h (by simp [projKeys] at hm ⊢; right; exact hm)
    have hbeq : (k == p.1) = false := by simp; exact h1
    show (List.lookup k (p :: t)).getD [] = []
    rw [List.lookup, hbeq]
    exact ih h2

theorem mem_depsOf {ps : Projects} {k d : String} (HK : (projKeys ps).Nodup) :
    d ∈ depsOf ps k ↔ ∃ ds, (k, ds) ∈ ps ∧ d ∈ ds := by
  constructor
  · intro h
    by_cases hk : k ∈ projKeys ps
    · rcases exists_pair_of_mem_projKeys hk with ⟨ds, hds⟩
      exact ⟨ds, hds, by rwa [depsOf_eq_of_mem HK hds] at h⟩
    · rw [depsOf_eq_nil_of_not_mem hk] at h
      cases h
  · rintro ⟨ds, hds, hd⟩
    rwa [depsOf_eq_of_mem HK hds]

/-- The project keys, sorted — the canonical key enumeration the loop
walks through. -/
def sortedKeys (ps : Projects) : List String := goSortStrings (projKeys ps)

/-- A key is ready relative to an emitted prefix `order` when it is
unemitted and all of its dependencies are emitted. -/
def readyB (ps : Projects) (order : List String) (k : String) : Bool :=
  !order.contains k && (depsOf ps k).all fun d => order.contains d

/-- The canonical ready queue for an emitted prefix. -/
def readyQueue (ps : Projects) (order : List String) : List String :=
  (sortedKeys ps).filter (readyB ps order)

/-- The canonical in-degree for an emitted prefix: the number of
unemitted dependencies. -/
def specInDeg (ps : Projects) (order : List String) : String → Int :=
  fun k => (((depsOf ps k).filter fun d => !order.contains d).length : Int)

theorem sortedKeys_perm (ps : Projects) : List.Perm (sortedKeys ps) (projKeys ps) :=
  List.perm_insertionSort _ _

theorem mem_sortedKeys {ps : Projects} {k : String} :
    k ∈ sortedKeys ps ↔ k ∈ projKeys ps := (sortedKeys_perm ps).mem_iff

theorem sortedKeys_sorted (ps : Projects) : (sortedKeys ps).Sorted sleR :=
  List.sorted_insertionSort _ _

theorem sortedKeys_nodup {ps : Projects} (HK : (projKeys ps).Nodup) :
    (sortedKeys ps).Nodup := (sortedKeys_perm ps).nodup_iff.mpr HK

theorem readyQueue_sorted (ps : Projects) (order : List String) :
    (readyQueue ps order).Sorted sleR :=
  (sortedKeys_sorted ps).filter _

theorem readyQueue_nodup {ps : Projects} (HK : (projKeys ps).Nodup)
    (order : List String) : (readyQueue ps order).Nodup :=
  (sortedKeys_nodup HK).filter _

theorem mem_readyQueue {ps : Projects} {order : List String} {x : String} :
    x ∈ readyQueue ps order ↔
      x ∈ projKeys ps ∧ x ∉ order ∧ ∀ d ∈ depsOf ps x, d ∈ order := by
  simp only [readyQueue, List.mem_filter, mem_sortedKeys, readyB,
    Bool.and_eq_true, Bool.not_eq_true', List.all_eq_true]
  constructor
  · rintro ⟨h1, h2, h3⟩
    refine ⟨h1, ?_, fun d hd => contains_iff.mp (h3 d hd)⟩
    intro hx
    rw [contains_iff.mpr hx] at h2
    cases h2
  · rintro ⟨h1, h2, h3⟩
    refine ⟨h1, ?_, fun d hd => contains_iff.mpr (h3 d hd)⟩
    by_cases hc : order.contains x = true
    · exact absurd (contains_iff.mp hc) h2
    · simpa using hc

theorem sleR_of_sLt {x y : String} (h : sLt x y = true) : sleR x y := by
  unfold sleR sLe sLt at *
  simp [goStrLtB_asymm _ _ h]

theorem sleR_of_not_sLt {x y : String} (h : ¬ sLt x y = true) : sleR y x := by
  unfold sleR sLe sLt at *
  simpa using h

theorem goQueueInsert_perm (x : String) (q : List String) :
    List.Perm (goQueueInsert x q) (x :: q) := by
  induction q with
  | nil => rfl
  | cons y ys ih =>
    by_cases h : sLt x y = true
    · simp [goQueueInsert, h]
    · simp only [goQueueInsert, if_neg h]
      exact ((ih.cons y).trans (List.Perm.swap x y ys))

theorem mem_goQueueInsert {x y : String} {q : List String} :
    y ∈ goQueueInsert x q ↔ y = x ∨ y ∈ q := by
  rw [(goQueueInsert_perm x q).mem_iff]
  simp

theorem goQueueInsert_nodup {x : String} {q : List String}
    (hx : x ∉ q) (h : q.Nodup) : (goQueueInsert x q).Nodup :=
  (goQueueInsert_perm x q).nodup_iff.mpr (List.nodup_cons.mpr ⟨hx, h⟩)

theorem goQueueInsert_sorted {x : String} {q : List String}
    (h : q.Sorted sleR) : (goQueueInsert x q).Sorted sleR := by
  induction q with
  | nil => simp [goQueueInsert, List.Sorted]
  | cons y ys ih =>
    rcases List.sorted_cons.mp h with ⟨hy, hys⟩
    by_cases hxy : sLt x y = true
    · simp only [goQueueInsert, if_pos hxy]
      refine List.sorted_cons.mpr ⟨?_, h⟩
      intro b hb
      rcases List.mem_cons.mp hb with hb | hb
      · exact hb ▸ sleR_of_sLt hxy
      · exact Trans.trans (sleR_of_sLt hxy) (hy b hb)
    · simp only [goQueueInsert, if_neg hxy]
      refine List.sorted_cons.mpr ⟨?_, ih hys⟩
      intro b hb
      rcases mem_goQueueInsert.mp hb with hb | hb
      · exact hb ▸ sleR_of_not_sLt hxy
      · exact hy b hb

theorem processDependents_spec (D : List String) :
    ∀ (q : List String) (f : String → Int),
    D.Nodup → (∀ x ∈ D, x ∉ q) →
    ((q.Nodup → (processDependents D (q, f)).1.Nodup) ∧
     (q.Sorted sleR → (processDependents D (q, f)).1.Sorted sleR) ∧
     (∀ x, x ∈ (processDependents D (q, f)).1 ↔
        x ∈ q ∨ (x ∈ D ∧ f x = 1)) ∧
     (∀ x, (processDependents D (q, f)).2 x =
        if x ∈ D then f x - 1 else f x)) := by
  induction D with
  | nil =>
    intro q f _ _
    refine ⟨fun h => h, fun h => h, fun x => by simp [processDependents],
      fun x => by simp [processDependents]⟩
  | cons k ks ih =>
    intro q f hD hdisj
    have hkks : k ∉ ks := (List.nodup_cons.mp hD).1
    have hksD : ks.Nodup := (List.nodup_cons.mp hD).2
    have hkq : k ∉ q := hdisj k (List.mem_cons_self k ks)
    set d := f k - 1 with hd
    set queue' := if d = 0 then goQueueInsert k q else q with hq'
    set f' := Function.update f k d with hf'
    have hstep : processDependents (k :: ks) (q, f) =
        processDependents ks (queue', f') := rfl
    have hdisj' : ∀ x ∈ ks, x ∉ queue' := by
      intro x hx hmem
      have hxk : x ≠ k := fun he => hkks (he ▸ hx)
      have hxq : x ∉ q := hdisj x (List.mem_cons_of_mem _ hx)
      rw [hq'] at hmem
      by_cases hd0 : d = 0
      · rw [if_pos hd0] at hmem
        rcases mem_goQueueInsert.mp hmem with h | h
        · exact hxk h
        · exact hxq h
      · rw [if_neg hd0] at hmem
        exact hxq hmem
    rcases ih queue' f' hksD hdisj' with ⟨ihn, ihs, ihm, ihf⟩
    refine ⟨?_, ?_, ?_, ?_⟩
    · intro hq
      rw [hstep]
      apply ihn
      rw [hq']
      by_cases hd0 : d = 0
      · rw [if_pos hd0]; exact goQueueInsert_nodup hkq hq
      · rw [if_neg hd0]; exact hq
    · intro hq
      rw [hstep]
      apply ihs
      rw [hq']
      by_cases hd0 : d = 0
      · rw [if_pos hd0]; exact goQueueInsert_sorted hq
      · rw [if_neg hd0]; exact hq
    · intro x
      rw [hstep, ihm x]
      have hfx : x ∈ ks → f' x = f x := by
        intro hx
        have : x ≠ k := fun he => hkks (he ▸ hx)
        simp [hf', Function.update, this]
      constructor
      · rintro (hx | ⟨hx, hfx1⟩)
        · rw [hq'] at hx
          by_cases hd0 : d = 0
          · rw [if_pos hd0] at hx
            rcases mem_goQueueInsert.mp hx with h | h
            · right
              refine ⟨h ▸ List.mem_cons_self k ks, ?_⟩
              rw [h]; rw [hd] at hd0; omega
            · exact Or.inl h
          · rw [if_neg hd0] at hx
            exact Or.inl hx
        · right
          exact ⟨List.mem_cons_of_mem _ hx, by rw [← hfx hx]; exact hfx1⟩
      · rintro (hx | ⟨hx, hfx1⟩)
        · left
          rw [hq']
          by_cases hd0 : d = 0
          · rw [if_pos hd0]
            exact mem_goQueueInsert.mpr (Or.inr hx)
          · rw [if_neg hd0]; exact hx
        · rcases List.mem_cons.mp hx with h | h
          · left
            rw [hq']
            have hd0 : d = 0 := by rw [hd]; subst h; omega
            rw [if_pos hd0]
            exact mem_goQueueInsert.mpr (Or.inl h)
          · right
            exact ⟨h, by rw [hfx h]; exact hfx1⟩
    · intro x
      rw [hstep, ihf x]
      by_cases hxk : x = k
      · subst hxk
        simp [hkks, hf', hd]
      · have : f' x = f x := by simp [hf', Function.update, hxk]
        rw [this]
        by_cases hxks : x ∈ ks
        · simp [hxks, List.mem_cons_of_mem _ hxks, hxk]
        · have : x ∉ k :: ks := by
            intro h
            rcases List.mem_cons.mp h with h | h
            · exact hxk h
            · exact hxks h
          simp [hxks, this]

theorem mem_dependentsRaw {ps : Projects} {c x : String} :
    (x ∈ ps.flatMap fun p => (p.2.filter fun d => d == c).map fun _ => p.1) ↔
      ∃ p ∈ ps, x = p.1 ∧ c ∈ p.2 := by
  simp only [List.mem_flatMap, List.mem_map, List.mem_filter]
  constructor
  · rintro ⟨p, hp, d, ⟨hd, hdc⟩, hx⟩
    have hdc' : d = c := by simpa using hdc
    exact ⟨p, hp, hx.symm, hdc' ▸ hd⟩
  · rintro ⟨p, hp, hx, hc⟩
    exact ⟨p, hp, c, ⟨hc, by simp⟩, hx.symm⟩

theorem mem_sortedDependents {ps : Projects} {c x : String}
    (HK : (projKeys ps).Nodup) :
    x ∈ sortedDependents ps c ↔ x ∈ projKeys ps ∧ c ∈ depsOf ps x := by
  rw [sortedDependents, goSortStrings, (List.perm_insertionSort _ _).mem_iff,
    mem_dependentsRaw]
  constructor
  · rintro ⟨p, hp, hx, hc⟩
    subst hx
    exact ⟨List.mem_map.mpr ⟨p, hp, rfl⟩,
      (mem_depsOf HK).mpr ⟨p.2, by simpa using hp, hc⟩⟩
  · rintro ⟨hx, hc⟩
    rcases (mem_depsOf HK).mp hc with ⟨ds, hds, hcds⟩
    exact ⟨(x, ds), hds, rfl, hcds⟩

theorem length_filter_beq_le_one (c : String) :
    ∀ l : List String, l.Nodup → (l.filter fun d => d == c).length ≤ 1 := by
  intro l
  induction l with
  | nil => intro _; simp
  | cons x xs ih =>
    intro hnd
    rcases List.nodup_cons.mp hnd with ⟨hx, hxs⟩
    by_cases hxc : (x == c) = true
    · have hxc' : x = c := by simpa using hxc
      have : (xs.filter fun d => d == c) = [] := by
        apply List.filter_eq_nil_iff.mpr
        intro d hd
        simp only [Bool.not_eq_true, beq_eq_false_iff_ne, ne_eq]
        intro he
        exact hx (by rw [hxc', ← he]; exact hd)
      simp [List.filter_cons, hxc, this]
    · simp only [List.filter_cons, hxc, Bool.false_eq_true, if_false]
      exact ih hxs

theorem nodup_dependentsRaw {c : String} :
    ∀ ps : Projects, (projKeys ps).Nodup → (∀ p ∈ ps, p.2.Nodup) →
    (ps.flatMap fun p => (p.2.filter fun d => d == c).map fun _ => p.1).Nodup := by
  intro ps
  induction ps with
  | nil => intro _ _; simp
  | cons p t ih =>
    intro HK HD
    rcases List.nodup_cons.mp HK with ⟨hp1, ht⟩
    simp only [List.flatMap_cons]
    apply List.Nodup.append
    · have hle := length_filter_beq_le_one c p.2 (HD p (List.mem_cons_self p t))
      have : ((p.2.filter fun d => d == c).map fun _ => p.1).length ≤ 1 := by
        simpa using hle
      match he : (p.2.filter fun d => d == c).map fun _ => p.1 with
      | [] => simp
      | [y] => simp
      | y :: z :: rest => rw [he] at this; simp at this
    · exact ih ht fun q hq => HD q (List.mem_cons_of_mem _ hq)
    · intro x hx₁ hx₂
      rcases List.mem_map.mp hx₁ with ⟨_, _, hx⟩
      rcases mem_dependentsRaw.mp hx₂ with ⟨q, hq, hxq, _⟩
      exact hp1 (by
        rw [← hx] at hxq
        rw [hxq]
        exact List.mem_map.mpr ⟨q, hq, rfl⟩)

theorem nodup_sortedDependents {ps : Projects} {c : String}
    (HK : (projKeys ps).Nodup) (HD : ∀ p ∈ ps, p.2.Nodup) :
    (sortedDependents ps c).Nodup :=
  (List.perm_insertionSort _ _).nodup_iff.mpr (nodup_dependentsRaw ps HK HD)

theorem sortedDependents_sorted (ps : Projects) (c : String) :
    (sortedDependents ps c).Sorted sleR := List.sorted_insertionSort _ _

theorem not_contains_of_not_mem {l : List String} {a : String} (h : a ∉ l) :
    l.contains a = false := by
  rcases Bool.eq_false_or_eq_true (l.contains a) with hb | hb
  · exact absurd (contains_iff.mp hb) h
  · exact hb

theorem contains_append_singleton (order : List String) (c d : String) :
    (order ++ [c]).contains d = (order.contains d || (d == c)) := by
  by_cases h1 : d ∈ order
  · rw [contains_iff.mpr (List.mem_append.mpr (Or.inl h1)), contains_iff.mpr h1]
    simp
  · rw [not_contains_of_not_mem h1]
    by_cases h2 : d = c
    · rw [contains_iff.mpr (List.mem_append.mpr (Or.inr (by simp [h2])))]
      simp [h2]
    · have hnm : d ∉ order ++ [c] := by
        intro hm
        rcases List.mem_append.mp hm with hm | hm
        · exact h1 hm
        · simp at hm; exact h2 hm
      rw [not_contains_of_not_mem hnm]
      simp
      exact h2

theorem length_filter_and_bne {p : String → Bool} {c : String}
    (hpc : p c = true) :
    ∀ l : List String, l.Nodup → c ∈ l →
    (l.filter fun d => p d && !(d == c)).length + 1 = (l.filter p).length := by
  intro l
  induction l with
  | nil => intro _ h; cases h
  | cons x xs ih =>
    intro hnd hc
    rcases List.nodup_cons.mp hnd with ⟨hx, hxs⟩
    by_cases hxc : x = c
    · subst hxc
      have hcongr : (xs.filter fun d => p d && !(d == x)) = xs.filter p := by
        apply List.filter_congr
        intro d hd
        have hne : (d == x) = false := by
          simp only [beq_eq_false_iff_ne, ne_eq]
          intro he
          exact hx (he ▸ hd)
        simp [hne]
      simp [List.filter_cons, hpc, hcongr]
    · have hcxs : c ∈ xs := by
        rcases List.mem_cons.mp hc with h | h
        · exact absurd h.symm hxc
        · exact h
      have hbx : (x == c) = false := by
        simp only [beq_eq_false_iff_ne, ne_eq]; exact hxc
      by_cases hpx : p x = true
      · simp only [List.filter_cons, hpx, hbx, Bool.not_false, Bool.and_true,
          if_true]
        simp only [List.length_cons]
        have := ih hxs hcxs
        omega
      · have hpx' : p x = false := by simpa using hpx
        simp only [List.filter_cons, hpx', hbx]
        simpa using ih hxs hcxs

theorem specInDeg_nil (ps : Projects) : specInDeg ps [] = initInDeg ps := by
  funext k
  simp [specInDeg, initInDeg, List.filter_true]

theorem specInDeg_append_of_mem {ps : Projects} {order : List String}
    {c x : String} (hcx : c ∈ depsOf ps x) (hnd : (depsOf ps x).Nodup)
    (hc : c ∉ order) :
    specInDeg ps (order ++ [c]) x = specInDeg ps order x - 1 := by
  unfold specInDeg
  have hcongr : ((depsOf ps x).filter fun d => !((order ++ [c]).contains d)) =
      (depsOf ps x).filter fun d => (!order.contains d) && !(d == c) := by
    apply List.filter_congr
    intro d _
    rw [contains_append_singleton]
    simp [Bool.not_or]
  rw [hcongr]
  have hpc : (!order.contains c) = true := by
    rw [not_contains_of_not_mem hc]; rfl
  have hlen : ((depsOf ps x).filter fun d => (!order.contains d) && !(d == c)).length + 1 =
      ((depsOf ps x).filter fun d => !order.contains d).length :=
    length_filter_and_bne hpc (depsOf ps x) hnd hcx
  omega

theorem specInDeg_append_of_not_mem {ps : Projects} {order : List String}
    {c x : String} (hcx : c ∉ depsOf ps x) :
    specInDeg ps (order ++ [c]) x = specInDeg ps order x := by
  unfold specInDeg
  have hcongr : ((depsOf ps x).filter fun d => !((order ++ [c]).contains d)) =
      (depsOf ps x).filter fun d => !order.contains d := by
    apply List.filter_congr
    intro d hd
    rw [contains_append_singleton]
    have : (d == c) = false := by
      simp only [beq_eq_false_iff_ne, ne_eq]
      intro he
      exact hcx (he ▸ hd)
    simp [this]
  rw [hcongr]

/-- Loop invariant of the Kahn main loop: the emitted order is a
duplicate-free topologically sorted list of project keys, the queue is
exactly the sorted ready set, and the in-degree function counts
unemitted dependencies. -/
structure KahnInv (ps : Projects) (order queue : List String)
    (inDeg : String → Int) : Prop where
  nodup : order.Nodup
  sub : ∀ k ∈ order, k ∈ projKeys ps
  topo : ∀ (n : Nat) (h : n < order.length),
    ∀ d ∈ depsOf ps (order.get ⟨n, h⟩), d ∈ order.take n
  queue_eq : queue = readyQueue ps order
  indeg_eq : inDeg = specInDeg ps order

/-- Specification-side greedy order: repeatedly emit the
lexicographically least ready key. -/
def greedyLexOrder (ps : Projects) : Nat → List String → List String
  | 0, order => order
  | fuel + 1, order =>
      match readyQueue ps order with
      | [] => order
      | c :: _ => greedyLexOrder ps fuel (order ++ [c])

theorem greedyLexOrder_succ (ps : Projects) (fuel : Nat) (order : List String) :
    greedyLexOrder ps (fuel + 1) order =
      match readyQueue ps order with
      | [] => order
      | c :: _ => greedyLexOrder ps fuel (order ++ [c]) := rfl

theorem all_false_eq_decide_length (l : List String) :
    (l.all fun _ => false) = decide (l.length = 0) := by
  cases l <;> simp

theorem kahnInv_init (ps : Projects) (HK : (projKeys ps).Nodup) :
    KahnInv ps [] (initQueue ps) (initInDeg ps) := by
  refine ⟨List.nodup_nil, by simp, by simp, ?_, (specInDeg_nil ps).symm⟩
  have hsorted₁ : (initQueue ps).Sorted sleR := List.sorted_insertionSort _ _
  have hsorted₂ : (readyQueue ps []).Sorted sleR := readyQueue_sorted ps []
  have hperm : List.Perm (initQueue ps) (readyQueue ps []) := by
    have h1 : List.Perm (initQueue ps)
        ((ps.filter fun p => p.2.length = 0).map Prod.fst) :=
      List.perm_insertionSort _ _
    have h2 : List.Perm (readyQueue ps [])
        ((projKeys ps).filter (readyB ps [])) :=
      (sortedKeys_perm ps).filter _
    have h3 : (projKeys ps).filter (readyB ps []) =
        (ps.filter fun p => p.2.length = 0).map Prod.fst := by
      rw [projKeys, List.filter_map]
      congr 1
      apply List.filter_congr
      intro p hp
      show readyB ps [] p.1 = decide (p.2.length = 0)
      unfold readyB
      rw [depsOf_eq_of_mem HK hp]
      simp only [List.contains, List.elem_nil, Bool.not_false, Bool.true_and]
      exact all_false_eq_decide_length p.2
    rw [← h3] at h1
    exact h1.trans h2.symm
  exact List.eq_of_perm_of_sorted hperm hsorted₁ hsorted₂

theorem kahnInv_step {ps : Projects} (HK : (projKeys ps).Nodup)
    (HD : ∀ p ∈ ps, p.2.Nodup) {order rest : List String} {c : String}
    {inDeg : String → Int}
    (inv : KahnInv ps order (c :: rest) inDeg) :
    KahnInv ps (order ++ [c])
      (processDependents (sortedDependents ps c) (rest, inDeg)).1
      (processDependents (sortedDependents ps c) (rest, inDeg)).2 := by
  have hcq : c ∈ readyQueue ps order := by
    rw [← inv.queue_eq]; exact List.mem_cons_self c rest
  rcases mem_readyQueue.mp hcq with ⟨hck, hco, hcd⟩
  have hDnd : (sortedDependents ps c).Nodup := nodup_sortedDependents HK HD
  have hQnd : (readyQueue ps order).Nodup := readyQueue_nodup HK order
  have hcons_nd : (c :: rest).Nodup := inv.queue_eq ▸ hQnd
  have hcrest : c ∉ rest := (List.nodup_cons.mp hcons_nd).1
  have hrest_nd : rest.Nodup := (List.nodup_cons.mp hcons_nd).2
  have hrest_sorted : rest.Sorted sleR := by
    have := readyQueue_sorted ps order
    rw [← inv.queue_eq] at this
    exact (List.sorted_cons.mp this).2
  have hrest_mem : ∀ x, x ∈ rest ↔ x ∈ readyQueue ps order ∧ x ≠ c := by
    intro x
    constructor
    · intro hx
      refine ⟨by rw [← inv.queue_eq]; exact List.mem_cons_of_mem _ hx, ?_⟩
      intro he
      exact hcrest (he ▸ hx)
    · rintro ⟨hx, hne⟩
      rw [← inv.queue_eq] at hx
      rcases List.mem_cons.mp hx with h | h
      · exact absurd h hne
      · exact h
  have hdepso : ∀ x ∈ order, ∀ d ∈ depsOf ps x, d ∈ order := by
    intro x hx d hd
    rcases List.getElem_of_mem hx with ⟨n, hn, hxn⟩
    have := inv.topo n hn d (by rw [show order.get ⟨n, hn⟩ = order[n] from rfl, hxn]; exact hd)
    exact List.take_subset n order this
  have hdisj : ∀ x ∈ sortedDependents ps c, x ∉ rest := by
    intro x hx hxr
    rcases (mem_sortedDependents HK).mp hx with ⟨hxk, hcx⟩
    rcases (hrest_mem x).mp hxr with ⟨hxq, _⟩
    rcases mem_readyQueue.mp hxq with ⟨_, _, hdeps⟩
    exact hco (hdeps c hcx)
  have hcD : c ∉ sortedDependents ps c := by
    intro hc'
    rcases (mem_sortedDependents HK).mp hc' with ⟨_, hcc⟩
    exact hco (hcd c hcc)
  obtain ⟨pn, pss, pmem, pf⟩ :=
    processDependents_spec (sortedDependents ps c) rest inDeg hDnd hdisj
  have hco' : ∀ x, x ∈ order ++ [c] ↔ x ∈ order ∨ x = c := by
    intro x; simp [List.mem_append]
  have hndeps : ∀ x ∈ projKeys ps, (depsOf ps x).Nodup := by
    intro x hx
    rcases exists_pair_of_mem_projKeys hx with ⟨ds, hds⟩
    rw [depsOf_eq_of_mem HK hds]
    exact HD (x, ds) hds
  refine ⟨?_, ?_, ?_, ?_, ?_⟩
  · exact List.Nodup.append inv.nodup (List.nodup_singleton c)
      (fun a ha hac => hco (by simp at hac; exact hac ▸ ha))
  · intro k hk
    rcases (hco' k).mp hk with h | h
    · exact inv.sub k h
    · exact h ▸ hck
  · intro n h d hd
    have hlen : n < order.length + 1 := by simpa using h
    by_cases hn : n < order.length
    · have hget : (order ++ [c]).get ⟨n, h⟩ = order.get ⟨n, hn⟩ := by
        show (order ++ [c])[n] = order[n]
        exact List.getElem_append_left hn
      rw [hget] at hd
      have := inv.topo n hn d hd
      rw [List.take_append_of_le_length (le_of_lt hn)]
      exact this
    · have hn' : n = order.length := by omega
      subst hn'
      have hget : (order ++ [c]).get ⟨order.length, h⟩ = c := by
        show (order ++ [c])[order.length] = c
        simp [List.getElem_append_right]
      rw [hget] at hd
      rw [List.take_left]
      exact hcd d hd
  · -- queue_eq for order ++ [c]
    refine List.eq_of_perm_of_sorted ?_ (pss hrest_sorted)
      (readyQueue_sorted ps (order ++ [c]))
    apply (List.perm_ext_iff_of_nodup (pn hrest_nd)
        (readyQueue_nodup HK (order ++ [c]))).mpr
    intro x
    rw [pmem x, mem_readyQueue]
    constructor
    · rintro (hx | ⟨hx, hfx⟩)
      · rcases (hrest_mem x).mp hx with ⟨hxq, hxc⟩
        rcases mem_readyQueue.mp hxq with ⟨hxk, hxo, hxdeps⟩
        refine ⟨hxk, ?_, ?_⟩
        · intro hm
          rcases (hco' x).mp hm with h | h
          · exact hxo h
          · exact hxc h
        · intro d hdx
          exact (hco' d).mpr (Or.inl (hxdeps d hdx))
      · rcases (mem_sortedDependents HK).mp hx with ⟨hxk, hcx⟩
        rw [inv.indeg_eq] at hfx
        have hxnd : (depsOf ps x).Nodup := hndeps x hxk
        have hxo : x ∉ order := by
          intro hxo
          exact hco (hdepso x hxo c hcx)
        have hxc : x ≠ c := fun he => hcD (he ▸ hx)
        have hfilter : ((depsOf ps x).filter fun d => !order.contains d) = [c] := by
          have hlen1 : ((depsOf ps x).filter fun d => !order.contains d).length = 1 := by
            unfold specInDeg at hfx
            omega
          rcases List.length_eq_one.mp hlen1 with ⟨a, ha⟩
          have hcmem : c ∈ (depsOf ps x).filter fun d => !order.contains d := by
            rw [List.mem_filter]
            exact ⟨hcx, by rw [not_contains_of_not_mem hco]; rfl⟩
          rw [ha] at hcmem
          simp at hcmem
          rw [ha, hcmem]
        refine ⟨hxk, ?_, ?_⟩
        · intro hm
          rcases (hco' x).mp hm with h | h
          · exact hxo h
          · exact hxc h
        · intro d hdx
          by_cases hdo : d ∈ order
          · exact (hco' d).mpr (Or.inl hdo)
          · have : d ∈ (depsOf ps x).filter fun d => !order.contains d := by
              rw [List.mem_filter]
              exact ⟨hdx, by rw [not_contains_of_not_mem hdo]; rfl⟩
            rw [hfilter] at this
            simp at this
            exact (hco' d).mpr (Or.inr this)
    · rintro ⟨hxk, hxo', hxdeps⟩
      have hxo : x ∉ order := fun h => hxo' ((hco' x).mpr (Or.inl h))
      have hxc : x ≠ c := fun h => hxo' ((hco' x).mpr (Or.inr h))
      by_cases hcx : c ∈ depsOf ps x
      · right
        refine ⟨(mem_sortedDependents HK).mpr ⟨hxk, hcx⟩, ?_⟩
        rw [inv.indeg_eq]
        have hxnd : (depsOf ps x).Nodup := hndeps x hxk
        have hsub : ∀ d ∈ (depsOf ps x).filter fun d => !order.contains d, d = c := by
          intro d hdf
          rcases List.mem_filter.mp hdf with ⟨hdx, hdc⟩
          rcases (hco' d).mp (hxdeps d hdx) with h | h
          · rw [contains_iff.mpr h] at hdc
            cases hdc
          · exact h
        have hcmem : c ∈ (depsOf ps x).filter fun d => !order.contains d := by
          rw [List.mem_filter]
          exact ⟨hcx, by rw [not_contains_of_not_mem hco]; rfl⟩
        have hfnd : ((depsOf ps x).filter fun d => !order.contains d).Nodup :=
          hxnd.filter _
        have hlen1 : ((depsOf ps x).filter fun d => !order.contains d).length = 1 := by
          match hf : (depsOf ps x).filter fun d => !order.contains d with
          | [] => rw [hf] at hcmem; cases hcmem
          | [a] => rfl
          | a :: b :: l =>
            rw [hf] at hsub hfnd
            have ha := hsub a (List.mem_cons_self a (b :: l))
            have hb := hsub b (List.mem_cons_of_mem a (List.mem_cons_self b l))
            rw [List.nodup_cons] at hfnd
            exact absurd (show a ∈ b :: l from by
              rw [ha, ← hb]
              exact List.mem_cons_self b l) hfnd.1
        unfold specInDeg
        omega
      · left
        apply (hrest_mem x).mpr
        refine ⟨mem_readyQueue.mpr ⟨hxk, hxo, ?_⟩, hxc⟩
        intro d hdx
        rcases (hco' d).mp (hxdeps d hdx) with h | h
        · exact h
        · exact absurd (h ▸ hdx) hcx
  · -- indeg_eq for order ++ [c]
    funext x
    rw [pf x, inv.indeg_eq]
    by_cases hx : x ∈ sortedDependents ps c
    · rcases (mem_sortedDependents HK).mp hx with ⟨hxk, hcx⟩
      rw [if_pos hx]
      exact (specInDeg_append_of_mem hcx (hndeps x hxk) hco).symm
    · rw [if_neg hx]
      have hcx : c ∉ depsOf ps x := by
        intro hcx
        by_cases hxk : x ∈ projKeys ps
        · exact hx ((mem_sortedDependents HK).mpr ⟨hxk, hcx⟩)
        · rw [depsOf_eq_nil_of_not_mem hxk] at hcx
          cases hcx
      exact (specInDeg_append_of_not_mem hcx).symm

theorem kahnLoop_inv {ps : Projects} (HK : (projKeys ps).Nodup)
    (HD : ∀ p ∈ ps, p.2.Nodup) :
    ∀ (fuel : Nat) (order queue : List String) (inDeg : String → Int),
    KahnInv ps order queue inDeg →
    (projKeys ps).length - order.length < fuel →
    KahnInv ps (kahnLoop ps fuel queue inDeg order) []
        (specInDeg ps (kahnLoop ps fuel queue inDeg order)) ∧
      kahnLoop ps fuel queue inDeg order = greedyLexOrder ps fuel order := by
  intro fuel
  induction fuel with
  | zero => intro order queue inDeg _ hfuel; omega
  | succ fuel ih =>
    intro order queue inDeg inv hfuel
    match queue with
    | [] =>
      have hready : readyQueue ps order = [] := inv.queue_eq.symm
      constructor
      · exact ⟨inv.nodup, inv.sub, inv.topo, hready.symm, rfl⟩
      · show order = greedyLexOrder ps (fuel + 1) order
        rw [greedyLexOrder_succ, hready]
    | c :: rest =>
      have inv' := kahnInv_step HK HD inv
      have hcq : c ∈ readyQueue ps order := by
        rw [← inv.queue_eq]; exact List.mem_cons_self c rest
      rcases mem_readyQueue.mp hcq with ⟨hck, hco, _⟩
      have hsub : (order ++ [c]) ⊆ projKeys ps := by
        intro a ha
        exact inv'.sub a ha
      have hlen : (order ++ [c]).length ≤ (projKeys ps).length :=
        (inv'.nodup.subperm hsub).length_le
      have hfuel' : (projKeys ps).length - (order ++ [c]).length < fuel := by
        simp only [List.length_append, List.length_singleton] at hlen ⊢
        omega
      have hstep :
          kahnLoop ps (fuel + 1) (c :: rest) inDeg order =
            kahnLoop ps fuel
              (processDependents (sortedDependents ps c) (rest, inDeg)).1
              (processDependents (sortedDependents ps c) (rest, inDeg)).2
              (order ++ [c]) := rfl
      rcases ih (order ++ [c]) _ _ inv' hfuel' with ⟨h1, h2⟩
      rw [hstep]
      refine ⟨h1, ?_⟩
      rw [h2]
      have hg : greedyLexOrder ps (fuel + 1) order =
          greedyLexOrder ps fuel (order ++ [c]) := by
        rw [greedyLexOrder_succ, ← inv.queue_eq]
      rw [hg]

/-! ## Resolver: cycles, ranks, and permutation invariance -/

/-- One dependency edge: `a` is a declared dependency of project `b`. -/
def depEdge (ps : Projects) (a b : String) : Prop :=
  b ∈ projKeys ps ∧ a ∈ depsOf ps b

/-- A dependency cycle: some key transitively depends on itself. -/
def hasCycle (ps : Projects) : Prop :=
  ∃ k, Relation.TransGen (depEdge ps) k k

theorem indexOf_lt_of_mem_take {a : String} :
    ∀ (l : List String) (n : Nat), a ∈ l.take n → l.indexOf a < n := by
  intro l
  induction l with
  | nil => intro n h; simp at h
  | cons x xs ih =>
    intro n h
    cases n with
    | zero => simp at h
    | succ n =>
      rw [List.take_succ_cons] at h
      by_cases hax : x = a
      · subst hax
        rw [List.indexOf_cons_self]
        exact Nat.succ_pos n
      · rcases List.mem_cons.mp h with h' | h'
        · exact absurd h'.symm hax
        · rw [List.indexOf_cons_ne _ hax]
          have := ih n h'
          omega

/-- From the positional topological property, a dependency has a
strictly smaller index than its dependent. -/
theorem indexOf_lt_of_topo {ps : Projects} {R : List String}
    (htopo : ∀ (n : Nat) (h : n < R.length),
      ∀ d ∈ depsOf ps (R.get ⟨n, h⟩), d ∈ R.take n)
    {k d : String} (hk : k ∈ R) (hd : d ∈ depsOf ps k) :
    R.indexOf d < R.indexOf k := by
  have hlt : R.indexOf k < R.length := List.indexOf_lt_length.mpr hk
  have hget : R.get ⟨R.indexOf k, hlt⟩ = k := List.getElem_indexOf hlt
  have := htopo (R.indexOf k) hlt d (by rw [hget]; exact hd)
  exact indexOf_lt_of_mem_take R (R.indexOf k) this

/-- A fully emitted topologically sorted order rules out cycles. -/
theorem not_hasCycle_of_topo {ps : Projects} {R : List String}
    (hall : ∀ k ∈ projKeys ps, k ∈ R)
    (htopo : ∀ (n : Nat) (h : n < R.length),
      ∀ d ∈ depsOf ps (R.get ⟨n, h⟩), d ∈ R.take n) :
    ¬ hasCycle ps := by
  rintro ⟨k, htg⟩
  have hrank : ∀ a b, Relation.TransGen (depEdge ps) a b →
      R.indexOf a < R.indexOf b := by
    intro a b h
    induction h with
    | single h => exact indexOf_lt_of_topo htopo (hall _ h.1) h.2
    | tail _ h ih =>
      exact lt_trans ih (indexOf_lt_of_topo htopo (hall _ h.1) h.2)
  exact absurd (hrank k k htg) (lt_irrefl _)

/-- If the loop got stuck with unemitted keys, the project map has a
cycle (pigeonhole over the unemitted set). -/
theorem hasCycle_of_stuck {ps : Projects} (HK : (projKeys ps).Nodup)
    (HE : ∀ p ∈ ps, ∀ d ∈ p.2, d ∈ projKeys ps) {R : List String}
    (hstuck : readyQueue ps R = [])
    (hnotall : ∃ k, k ∈ projKeys ps ∧ k ∉ R) : hasCycle ps := by
  classical
  set S : Finset String :=
    ((projKeys ps).filter fun k => !R.contains k).toFinset with hSdef
  have hS : ∀ k, k ∈ S ↔ k ∈ projKeys ps ∧ k ∉ R := by
    intro k
    rw [hSdef, List.mem_toFinset, List.mem_filter]
    constructor
    · rintro ⟨h1, h2⟩
      refine ⟨h1, fun hm => ?_⟩
      rw [contains_iff.mpr hm] at h2
      cases h2
    · rintro ⟨h1, h2⟩
      exact ⟨h1, by rw [not_contains_of_not_mem h2]; rfl⟩
  have hstep : ∀ k ∈ S, ∃ d, d ∈ depsOf ps k ∧ d ∈ S := by
    intro k hk
    rcases (hS k).mp hk with ⟨hkk, hkR⟩
    have : k ∉ readyQueue ps R := by rw [hstuck]; simp
    rw [mem_readyQueue] at this
    push_neg at this
    rcases this hkk hkR with ⟨d, hd, hdR⟩
    refine ⟨d, hd, (hS d).mpr ⟨?_, hdR⟩⟩
    rcases (mem_depsOf HK).mp hd with ⟨ds, hds, hdds⟩
    exact HE (k, ds) hds d hdds
  set f : String → String :=
    fun k => if h : ∃ d, d ∈ depsOf ps k ∧ d ∈ S then h.choose else k with hfdef
  have hf : ∀ k ∈ S, f k ∈ depsOf ps k ∧ f k ∈ S := by
    intro k hk
    have h := hstep k hk
    rw [hfdef]
    simp only [dif_pos h]
    exact h.choose_spec
  have hiter : ∀ (n : Nat), ∀ k ∈ S, f^[n] k ∈ S := by
    intro n
    induction n with
    | zero => intro k hk; simpa using hk
    | succ n ih =>
      intro k hk
      rw [Function.iterate_succ_apply']
      exact (hf _ (ih k hk)).2
  have hedge : ∀ k ∈ S, depEdge ps (f k) k := by
    intro k hk
    exact ⟨((hS k).mp hk).1, (hf k hk).1⟩
  have htg : ∀ (m : Nat), 0 < m → ∀ k ∈ S,
      Relation.TransGen (depEdge ps) (f^[m] k) k := by
    intro m
    induction m with
    | zero => omega
    | succ m ih =>
      intro _ k hk
      match m with
      | 0 =>
        rw [Function.iterate_one]
        exact Relation.TransGen.single (hedge k hk)
      | m + 1 =>
        rw [Function.iterate_succ_apply']
        exact Relation.TransGen.head
          (hedge _ (hiter (m + 1) k hk)) (ih (by omega) k hk)
  rcases hnotall with ⟨k₀, hk₀k, hk₀R⟩
  have hk₀ : k₀ ∈ S := (hS k₀).mpr ⟨hk₀k, hk₀R⟩
  have hmaps : ∀ n ∈ Finset.range (S.card + 1), f^[n] k₀ ∈ S :=
    fun n _ => hiter n k₀ hk₀
  have hcard : S.card < (Finset.range (S.card + 1)).card := by
    simp
  rcases Finset.exists_ne_map_eq_of_card_lt_of_maps_to hcard hmaps with
    ⟨i, _, j, _, hij, heq⟩
  rcases Nat.lt_or_ge i j with hlt | hge
  · refine ⟨f^[i] k₀, ?_⟩
    have hy : f^[j - i] (f^[i] k₀) = f^[i] k₀ := by
      rw [← Function.iterate_add_apply, Nat.sub_add_cancel (le_of_lt hlt), ← heq]
    have := htg (j - i) (by omega) (f^[i] k₀) (hiter i k₀ hk₀)
    rwa [hy] at this
  · have hlt : j < i := by omega
    refine ⟨f^[j] k₀, ?_⟩
    have hy : f^[i - j] (f^[j] k₀) = f^[j] k₀ := by
      rw [← Function.iterate_add_apply, Nat.sub_add_cancel (le_of_lt hlt), heq]
    have := htg (i - j) (by omega) (f^[j] k₀) (hiter j k₀ hk₀)
    rwa [hy] at this

theorem firstDangling_eq_none_iff {ps : Projects} :
    firstDangling ps = none ↔ ∀ p ∈ ps, ∀ d ∈ p.2, d ∈ projKeys ps := by
  rw [firstDangling, List.find?_eq_none]
  constructor
  · intro h p hp d hd
    have hmem : (p.1, d) ∈ ps.flatMap fun p => p.2.map fun d => (p.1, d) := by
      rw [List.mem_flatMap]
      exact ⟨p, hp, List.mem_map.mpr ⟨d, hd, rfl⟩⟩
    have := h _ hmem
    simp only [decide_not, Bool.not_eq_true', decide_eq_false_iff_not,
      Decidable.not_not] at this
    exact contains_iff.mp this
  · intro h x hx
    rw [List.mem_flatMap] at hx
    rcases hx with ⟨p, hp, hx⟩
    rcases List.mem_map.mp hx with ⟨d, hd, hxd⟩
    subst hxd
    simp only [decide_not, Bool.not_eq_true', Bool.not_eq_false,
      decide_eq_true_eq]
    exact contains_iff.mpr (h p hp d hd)

theorem projKeys_perm {ps ps' : Projects} (h : List.Perm ps' ps) :
    List.Perm (projKeys ps') (projKeys ps) := h.map _

theorem depsOf_perm_eq {ps ps' : Projects} (h : List.Perm ps' ps)
    (HK : (projKeys ps).Nodup) : depsOf ps' = depsOf ps := by
  have HK' : (projKeys ps').Nodup := (projKeys_perm h).nodup_iff.mpr HK
  funext k
  by_cases hk : k ∈ projKeys ps
  · rcases exists_pair_of_mem_projKeys hk with ⟨ds, hds⟩
    have hds' : (k, ds) ∈ ps' := h.mem_iff.mpr hds
    rw [depsOf_eq_of_mem HK hds, depsOf_eq_of_mem HK' hds']
  · have hk' : k ∉ projKeys ps' := fun hm => hk ((projKeys_perm h).mem_iff.mp hm)
    rw [depsOf_eq_nil_of_not_mem hk, depsOf_eq_nil_of_not_mem hk']

theorem sortedKeys_perm_eq {ps ps' : Projects} (h : List.Perm ps' ps) :
    sortedKeys ps' = sortedKeys ps := by
  apply List.eq_of_perm_of_sorted _ (sortedKeys_sorted ps') (sortedKeys_sorted ps)
  exact (sortedKeys_perm ps').trans ((projKeys_perm h).trans (sortedKeys_perm ps).symm)

theorem readyQueue_perm_eq {ps ps' : Projects} (h : List.Perm ps' ps)
    (HK : (projKeys ps).Nodup) : readyQueue ps' = readyQueue ps := by
  funext order
  rw [readyQueue, readyQueue, sortedKeys_perm_eq h]
  apply List.filter_congr
  intro k _
  rw [readyB, readyB, depsOf_perm_eq h HK]

theorem greedyLexOrder_perm_eq {ps ps' : Projects} (h : List.Perm ps' ps)
    (HK : (projKeys ps).Nodup) :
    ∀ (fuel : Nat) (order : List String),
    greedyLexOrder ps' fuel order = greedyLexOrder ps fuel order := by
  intro fuel
  induction fuel with
  | zero => intro order; rfl
  | succ fuel ih =>
    intro order
    rw [greedyLexOrder_succ, greedyLexOrder_succ, readyQueue_perm_eq h HK]
    match readyQueue ps order with
    | [] => rfl
    | c :: _ => exact ih (order ++ [c])

theorem kahnFuel_perm_eq {ps ps' : Projects} (h : List.Perm ps' ps) :
    kahnFuel ps' = kahnFuel ps := by
  rw [kahnFuel, kahnFuel, h.length_eq, (h.map fun p => p.2.length).sum_eq]

theorem hasCycle_perm_iff {ps ps' : Projects} (h : List.Perm ps' ps)
    (HK : (projKeys ps).Nodup) : hasCycle ps' ↔ hasCycle ps := by
  have hedge : depEdge ps' = depEdge ps := by
    funext a b
    rw [depEdge, depEdge, depsOf_perm_eq h HK]
    apply propext
    constructor
    · rintro ⟨h1, h2⟩
      exact ⟨(projKeys_perm h).mem_iff.mp h1, h2⟩
    · rintro ⟨h1, h2⟩
      exact ⟨(projKeys_perm h).mem_iff.mpr h1, h2⟩
  rw [hasCycle, hasCycle, hedge]

theorem not_hasCycle_of_no_edge {ps : Projects}
    (h : ∀ a b, ¬ depEdge ps a b) : ¬ hasCycle ps := by
  rintro ⟨k, htg⟩
  cases htg with
  | single he => exact h _ _ he
  | tail _ he => exact h _ _ he

theorem resolve_run {ps : Projects} (HK : (projKeys ps).Nodup)
    (HD : ∀ p ∈ ps, p.2.Nodup) :
    KahnInv ps (kahnLoop ps (kahnFuel ps) (initQueue ps) (initInDeg ps) []) []
      (specInDeg ps (kahnLoop ps (kahnFuel ps) (initQueue ps) (initInDeg ps) [])) ∧
    kahnLoop ps (kahnFuel ps) (initQueue ps) (initInDeg ps) [] =
      greedyLexOrder ps (kahnFuel ps) [] := by
  apply kahnLoop_inv HK HD (kahnFuel ps) [] _ _ (kahnInv_init ps HK)
  show (projKeys ps).length - ([] : List String).length < kahnFuel ps
  rw [projKeys, List.length_map, kahnFuel]
  simp only [List.length_nil]
  omega

theorem resolve_acyclic_eq {ps : Projects} (HK : (projKeys ps).Nodup)
    (HD : ∀ p ∈ ps, p.2.Nodup)
    (HE : ∀ p ∈ ps, ∀ d ∈ p.2, d ∈ projKeys ps) (HA : ¬ hasCycle ps) :
    resolveExecutionOrder ps =
      .ok ⟨greedyLexOrder ps (kahnFuel ps) [], fun k => depsOf ps k⟩ := by
  obtain ⟨invR, hgreedy⟩ := resolve_run HK HD
  have hstuck : readyQueue ps
      (kahnLoop ps (kahnFuel ps) (initQueue ps) (initInDeg ps) []) = [] :=
    invR.queue_eq.symm
  have hall : ∀ k ∈ projKeys ps,
      k ∈ kahnLoop ps (kahnFuel ps) (initQueue ps) (initInDeg ps) [] := by
    by_contra hcon
    push_neg at hcon
    rcases hcon with ⟨k, hk, hkR⟩
    exact HA (hasCycle_of_stuck HK HE hstuck ⟨k, hk, hkR⟩)
  have hperm : List.Perm
      (kahnLoop ps (kahnFuel ps) (initQueue ps) (initInDeg ps) [])
      (projKeys ps) :=
    (List.perm_ext_iff_of_nodup invR.nodup HK).mpr
      fun a => ⟨fun h => invR.sub a h, fun h => hall a h⟩
  have hlen : (kahnLoop ps (kahnFuel ps) (initQueue ps) (initInDeg ps)
      []).length = ps.length := by
    rw [hperm.length_eq, projKeys, List.length_map]
  have hnone : firstDangling ps = none := firstDangling_eq_none_iff.mpr HE
  have h1 : resolveExecutionOrder ps =
      if (kahnLoop ps (kahnFuel ps) (initQueue ps) (initInDeg ps)
          []).length ≠ ps.length
      then .error .circular
      else .ok ⟨kahnLoop ps (kahnFuel ps) (initQueue ps) (initInDeg ps) [],
        fun k => depsOf ps k⟩ := by
    unfold resolveExecutionOrder
    rw [hnone]
  rw [h1, if_neg (by simp [hlen]), hgreedy]

/-- C1. For an acyclic project map whose declared dependencies all
exist (and whose per-project dependency lists are duplicate-free, as
the data model requires), `ResolveExecutionOrder` succeeds; the
execution order is a permutation of the project keys containing each
key exactly once, every declared dependency precedes each of its
dependents, the order equals the greedy lexicographic-minimum
topological order (lexicographic tie-break), and the whole result is
invariant under permuting the map's iteration order — repeated calls
on the same map yield identical results. -/
theorem resolveExecutionOrder_acyclic_correct (ps : Projects)
    (HK : (projKeys ps).Nodup) (HD : ∀ p ∈ ps, p.2.Nodup)
    (HE : ∀ p ∈ ps, ∀ d ∈ p.2, d ∈ projKeys ps) (HA : ¬ hasCycle ps) :
    ∃ r, resolveExecutionOrder ps = .ok r ∧
      List.Perm r.executionOrder (projKeys ps) ∧
      r.executionOrder.Nodup ∧
      (∀ k d, k ∈ projKeys ps → d ∈ depsOf ps k →
        r.executionOrder.indexOf d < r.executionOrder.indexOf k) ∧
      r.executionOrder = greedyLexOrder ps (kahnFuel ps) [] ∧
      ∀ ps' : Projects, List.Perm ps' ps →
        resolveExecutionOrder ps' = resolveExecutionOrder ps := by
  obtain ⟨invR, hgreedy⟩ := resolve_run HK HD
  have hres := resolve_acyclic_eq HK HD HE HA
  have hstuck : readyQueue ps
      (kahnLoop ps (kahnFuel ps) (initQueue ps) (initInDeg ps) []) = [] :=
    invR.queue_eq.symm
  have hall : ∀ k ∈ projKeys ps,
      k ∈ kahnLoop ps (kahnFuel ps) (initQueue ps) (initInDeg ps) [] := by
    by_contra hcon
    push_neg at hcon
    rcases hcon with ⟨k, hk, hkR⟩
    exact HA (hasCycle_of_stuck HK HE hstuck ⟨k, hk, hkR⟩)
  have hperm : List.Perm
      (kahnLoop ps (kahnFuel ps) (initQueue ps) (initInDeg ps) [])
      (projKeys ps) :=
    (List.perm_ext_iff_of_nodup invR.nodup HK).mpr
      fun a => ⟨fun h => invR.sub a h, fun h => hall a h⟩
  refine ⟨⟨greedyLexOrder ps (kahnFuel ps) [], fun k => depsOf ps k⟩,
    hres, ?_, ?_, ?_, rfl, ?_⟩
  · exact hgreedy ▸ hperm
  · exact hgreedy ▸ invR.nodup
  · intro k d hk hd
    have hkR : k ∈ kahnLoop ps (kahnFuel ps) (initQueue ps) (initInDeg ps) [] :=
      hall k hk
    have := indexOf_lt_of_topo invR.topo hkR hd
    rw [hgreedy] at this
    exact this
  · intro ps' hps'
    have HK' : (projKeys ps').Nodup := (projKeys_perm hps').nodup_iff.mpr HK
    have HD' : ∀ p ∈ ps', p.2.Nodup := fun p hp => HD p (hps'.mem_iff.mp hp)
    have HE' : ∀ p ∈ ps', ∀ d ∈ p.2, d ∈ projKeys ps' :=
      fun p hp d hd =>
        (projKeys_perm hps').mem_iff.mpr (HE p (hps'.mem_iff.mp hp) d hd)
    have HA' : ¬ hasCycle ps' := by
      rw [hasCycle_perm_iff hps' HK]
      exact HA
    rw [resolve_acyclic_eq HK' HD' HE' HA', hres,
      greedyLexOrder_perm_eq hps' HK, kahnFuel_perm_eq hps',
      depsOf_perm_eq hps' HK]

theorem resolveExecutionOrder_acyclic_correct_witness :
    (¬ hasCycle [("b", []), ("a", []), ("c", [])]) ∧
    ∃ r, resolveExecutionOrder [("b", []), ("a", []), ("c", [])] = .ok r ∧
      r.executionOrder = ["a", "b", "c"] := by
  have hnc : ¬ hasCycle [("b", []), ("a", []), ("c", [])] := by
    apply not_hasCycle_of_no_edge
    rintro a b ⟨hb, ha⟩
    simp only [projKeys, List.map_cons, List.map_nil, List.mem_cons,
      List.not_mem_nil, or_false] at hb
    rcases hb with rfl | rfl | rfl
    · rw [show depsOf [("b", []), ("a", []), ("c", [])] "b" = [] from rfl] at ha
      cases ha
    · rw [show depsOf [("b", []), ("a", []), ("c", [])] "a" = [] from rfl] at ha
      cases ha
    · rw [show depsOf [("b", []), ("a", []), ("c", [])] "c" = [] from rfl] at ha
      cases ha
  refine ⟨hnc, ?_⟩
  obtain ⟨r, hres, _, _, _, hgreedy, _⟩ :=
    resolveExecutionOrder_acyclic_correct [("b", []), ("a", []), ("c", [])]
      (by decide) (by decide) (by decide) hnc
  exact ⟨r, hres, by rw [hgreedy]; rfl⟩

/-- C2. For a project map with a dependency cycle (all declared
dependency keys existing, dependency lists duplicate-free),
`ResolveExecutionOrder` returns the circular-dependency error — an
`Except.error` carries no `ResolutionResult`, so no partial order is
emitted — and `ValidateDependencies` returns the same error. -/
theorem resolveExecutionOrder_cycle_error (ps : Projects)
    (HK : (projKeys ps).Nodup) (HD : ∀ p ∈ ps, p.2.Nodup)
    (HE : ∀ p ∈ ps, ∀ d ∈ p.2, d ∈ projKeys ps) (HC : hasCycle ps) :
    resolveExecutionOrder ps = .error .circular ∧
    validateDependencies ps = some .circular := by
  obtain ⟨invR, _⟩ := resolve_run HK HD
  have hne : (kahnLoop ps (kahnFuel ps) (initQueue ps) (initInDeg ps)
      []).length ≠ ps.length := by
    intro hlen
    have hsub : kahnLoop ps (kahnFuel ps) (initQueue ps) (initInDeg ps) [] ⊆
        projKeys ps := fun a ha => invR.sub a ha
    have hperm : List.Perm
        (kahnLoop ps (kahnFuel ps) (initQueue ps) (initInDeg ps) [])
        (projKeys ps) :=
      (invR.nodup.subperm hsub).perm_of_length_le
        (by rw [hlen, projKeys, List.length_map])
    have hall : ∀ k ∈ projKeys ps,
        k ∈ kahnLoop ps (kahnFuel ps) (initQueue ps) (initInDeg ps) [] :=
      fun k hk => hperm.mem_iff.mpr hk
    exact absurd HC (not_hasCycle_of_topo hall invR.topo)
  have hnone : firstDangling ps = none := firstDangling_eq_none_iff.mpr HE
  have hres : resolveExecutionOrder ps = .error .circular := by
    have h1 : resolveExecutionOrder ps =
        if (kahnLoop ps (kahnFuel ps) (initQueue ps) (initInDeg ps)
            []).length ≠ ps.length
        then .error .circular
        else .ok ⟨kahnLoop ps (kahnFuel ps) (initQueue ps) (initInDeg ps) [],
          fun k => depsOf ps k⟩ := by
      unfold resolveExecutionOrder
      rw [hnone]
    rw [h1, if_pos hne]
  refine ⟨hres, ?_⟩
  unfold validateDependencies
  rw [hres]

theorem resolveExecutionOrder_cycle_error_witness :
    hasCycle [("x", ["y"]), ("y", ["x"])] ∧
    resolveExecutionOrder [("x", ["y"]), ("y", ["x"])] = .error .circular ∧
    validateDependencies [("x", ["y"]), ("y", ["x"])] = some .circular := by
  have hc : hasCycle [("x", ["y"]), ("y", ["x"])] := by
    have e1 : depEdge [("x", ["y"]), ("y", ["x"])] "x" "y" :=
      ⟨by decide, by decide⟩
    have e2 : depEdge [("x", ["y"]), ("y", ["x"])] "y" "x" :=
      ⟨by decide, by decide⟩
    exact ⟨"x", Relation.TransGen.head e1 (Relation.TransGen.single e2)⟩
  have := resolveExecutionOrder_cycle_error [("x", ["y"]), ("y", ["x"])]
    (by decide) (by decide) (by decide) hc
  exact ⟨hc, this.1, this.2⟩

/-- C3. If some project declares a dependency on a key absent from the
map, `ResolveExecutionOrder` fails with a dangling-dependency error —
again carrying no `ResolutionResult` — whose message names both the
offending project and the missing dependency. -/
theorem resolveExecutionOrder_dangling_error (ps : Projects)
    (h : ∃ p ∈ ps, ∃ d ∈ p.2, d ∉ projKeys ps) :
    ∃ A Z, resolveExecutionOrder ps = .error (.dangling A Z) ∧
      (∃ ds, (A, ds) ∈ ps ∧ Z ∈ ds) ∧ Z ∉ projKeys ps ∧
      (ResolverErr.dangling A Z).message =
        "project " ++ A ++ " depends on " ++ Z ++ ", but " ++ Z ++
          " was not found" := by
  have hne : firstDangling ps ≠ none := by
    intro hnone
    rcases h with ⟨p, hp, d, hd, hdk⟩
    exact hdk (firstDangling_eq_none_iff.mp hnone p hp d hd)
  rcases hfd : firstDangling ps with _ | ⟨A, Z⟩
  · exact absurd hfd hne
  refine ⟨A, Z, ?_, ?_, ?_, rfl⟩
  · unfold resolveExecutionOrder
    rw [hfd]
  · have hmem := List.mem_of_find?_eq_some hfd
    rw [List.mem_flatMap] at hmem
    rcases hmem with ⟨p, hp, hmem⟩
    rcases List.mem_map.mp hmem with ⟨d, hd, heq⟩
    refine ⟨p.2, ?_, ?_⟩
    · have : A = p.1 := by
        have := congrArg Prod.fst heq
        simpa using this.symm
      rw [this]
      simpa using hp
    · have : Z = d := by
        have := congrArg Prod.snd heq
        simpa using this.symm
      rw [this]
      exact hd
  · have hpred := List.find?_some hfd
    simp only [decide_not, Bool.not_eq_true', decide_eq_false_iff_not] at hpred
    intro hm
    exact hpred (contains_iff.mpr hm)

theorem resolveExecutionOrder_dangling_error_witness :
    ∃ A Z, resolveExecutionOrder [("a", ["z"])] = .error (.dangling A Z) ∧
      Z ∉ projKeys [("a", ["z"])] := by
  obtain ⟨A, Z, hres, _, hZ, _⟩ :=
    resolveExecutionOrder_dangling_error [("a", ["z"])] (by decide)
  exact ⟨A, Z, hres, hZ⟩

/-! ## Executor: data model (`internal/executor/executor.go`,
`internal/config/project.go`, `internal/config/app.go`)

Go maps (`Scripts map[string]Script`, `Scripts map[string]bool`,
`Environment map[string]string`) are embedded as association lists;
map iteration order is the list order. The `Duration` field of
`ExecutionResult` records wall-clock time and is not embedded. -/

/-- `config.Script` (project.go lines 26–31). -/
structure Script where
  command : String
  workingDir : String
  environment : List (String × String)
deriving DecidableEq, Repr

/-- `config.AppConfig` (app.go lines 11–19); the `Namespace` field is
named `nspace` because `namespace` is a Lean keyword. `Description`
and `Tags` are not consulted by the executor and are omitted. -/
structure AppConfig where
  name : String
  nspace : String
  dependencies : List String
  scripts : List (String × Bool)
  environment : List (String × String)
deriving DecidableEq, Repr

/-- `config.AppProject` (app.go lines 21–24). -/
structure AppProject where
  config : AppConfig
  path : String
deriving DecidableEq, Repr

/-- The workspace script catalog of `config.ProjectConfig`
(project.go lines 19–24); only the `Scripts` field is consulted by the
executor. -/
structure ProjectConfig where
  scripts : List (String × Script)
deriving DecidableEq, Repr

/-- `executor.ExecutionResult` (executor.go lines 19–26) without the
wall-clock `Duration` field. -/
structure ExecutionResult where
  projectKey : String
  script : String
  success : Bool
  output : String
  error : String
deriving DecidableEq, Repr

/-- Fueled worker for `goReplaceAll`; the fuel only serves structural
termination and is always at least the length of the scanned string,
so the zero-fuel arm is unreachable. -/
def goReplaceAllAux (pat rep : List Char) : Nat → List Char → List Char
  | 0, s => s
  | _ + 1, [] => []
  | fuel + 1, c :: cs =>
      if pat ≠ [] ∧ pat.isPrefixOf (c :: cs) then
        rep ++ goReplaceAllAux pat rep fuel ((c :: cs).drop pat.length)
      else c :: goReplaceAllAux pat rep fuel cs

/-- `strings.ReplaceAll` on code-point sequences: scan left to right,
replacing each (non-overlapping) occurrence of `pat` by `rep`.
Modeled for nonempty `pat`; every call site passes a nonempty
placeholder literal (Go inserts `rep` between characters when `old`
is empty, which never arises here). -/
def goReplaceAll (pat rep s : List Char) : List Char :=
  goReplaceAllAux pat rep s.length s

theorem goReplaceAllAux_fuel (pat rep : List Char) :
    ∀ (fuel₁ : Nat) (s : List Char) (fuel₂ : Nat),
    s.length ≤ fuel₁ → s.length ≤ fuel₂ →
    goReplaceAllAux pat rep fuel₁ s = goReplaceAllAux pat rep fuel₂ s := by
  intro fuel₁
  induction fuel₁ with
  | zero =>
    intro s fuel₂ h1 _
    have : s = [] := List.eq_nil_of_length_eq_zero (by omega)
    subst this
    cases fuel₂ <;> rfl
  | succ fuel₁ ih =>
    intro s fuel₂ h1 h2
    cases s with
    | nil => cases fuel₂ <;> rfl
    | cons c cs =>
      cases fuel₂ with
      | zero => simp at h2
      | succ fuel₂ =>
        show (if pat ≠ [] ∧ pat.isPrefixOf (c :: cs) then
            rep ++ goReplaceAllAux pat rep fuel₁ ((c :: cs).drop pat.length)
          else c :: goReplaceAllAux pat rep fuel₁ cs) =
          (if pat ≠ [] ∧ pat.isPrefixOf (c :: cs) then
            rep ++ goReplaceAllAux pat rep fuel₂ ((c :: cs).drop pat.length)
          else c :: goReplaceAllAux pat rep fuel₂ cs)
        by_cases hc : pat ≠ [] ∧ pat.isPrefixOf (c :: cs)
        · rw [if_pos hc, if_pos hc]
          have hplen : 0 < pat.length := List.length_pos.mpr hc.1
          have hdlen : ((c :: cs).drop pat.length).length ≤ fuel₁ := by
            simp only [List.length_drop, List.length_cons] at *
            omega
          have hdlen₂ : ((c :: cs).drop pat.length).length ≤ fuel₂ := by
            simp only [List.length_drop, List.length_cons] at *
            omega
          rw [ih _ fuel₂ hdlen hdlen₂]
        · rw [if_neg hc, if_neg hc]
          have : cs.length ≤ fuel₁ := by simp at h1; omega
          have h2' : cs.length ≤ fuel₂ := by simp at h2; omega
          rw [ih cs fuel₂ this h2']

theorem goReplaceAll_nil (pat rep : List Char) :
    goReplaceAll pat rep [] = [] := rfl

theorem goReplaceAll_cons (pat rep : List Char) (c : Char) (cs : List Char) :
    goReplaceAll pat rep (c :: cs) =
      if pat ≠ [] ∧ pat.isPrefixOf (c :: cs) then
        rep ++ goReplaceAll pat rep ((c :: cs).drop pat.length)
      else c :: goReplaceAll pat rep cs := by
  show goReplaceAllAux pat rep (cs.length + 1) (c :: cs) = _
  show (if pat ≠ [] ∧ pat.isPrefixOf (c :: cs) then
      rep ++ goReplaceAllAux pat rep cs.length ((c :: cs).drop pat.length)
    else c :: goReplaceAllAux pat rep cs.length cs) = _
  by_cases hc : pat ≠ [] ∧ pat.isPrefixOf (c :: cs)
  · rw [if_pos hc, if_pos hc]
    rw [goReplaceAll,
      goReplaceAllAux_fuel pat rep cs.length ((c :: cs).drop pat.length)
        ((c :: cs).drop pat.length).length
        (by
          have hpl : 0 < pat.length := List.length_pos.mpr hc.1
          simp only [List.length_drop, List.length_cons]
          omega) (le_refl _)]
  · rw [if_neg hc, if_neg hc]
    rw [goReplaceAll,
      goReplaceAllAux_fuel pat rep cs.length cs cs.length (le_refl _)
        (le_refl _)]

/-- `strings.ReplaceAll` on `String`. -/
def strReplaceAll (s pat rep : String) : String :=
  ⟨goReplaceAll pat.data rep.data s.data⟩

/-- The `replacements` map of `replaceVariables`
(executor.go lines 185–190), in declaration order; Go iterates this
map in unspecified order, so an execution of `replaceVariables`
corresponds to some permutation of this list. -/
def replacementPairs (project : AppProject) (workingDir : String) :
    List (String × String) :=
  [("{projectRoot}", project.path),
   ("{projectName}", project.config.name),
   ("{namespace}", project.config.nspace),
   ("{workingDir}", workingDir)]

/-- The fold of `strings.ReplaceAll` over the replacement pairs in the
order given by `pairs` (executor.go lines 192–197). -/
def replaceVariablesWith (pairs : List (String × String))
    (command : String) : String :=
  pairs.foldl (fun r p => strReplaceAll r p.1 p.2) command

/-- `replaceVariables` with the map iterated in declaration order
(one of the possible Go iteration orders; order (in)dependence is
studied separately). -/
def replaceVariables (command : String) (project : AppProject)
    (workingDir : String) : String :=
  replaceVariablesWith (replacementPairs project workingDir) command

/-- `filepath.IsAbs` on Unix: the path starts with a slash. -/
def goIsAbs (s : String) : Bool :=
  match s.data with
  | [] => false
  | c :: _ => c == '/'

/-- `filepath.Join` of two components, modeled as slash concatenation
(`filepath.Clean` normalization of `.`/`..`/duplicate slashes is not
modeled; no claim depends on it). -/
def goPathJoin (a b : String) : String := a ++ "/" ++ b

/-- The lookup errors of `ExecuteScript` (executor.go lines 44–52). -/
inductive ExecErr where
  | projectNotFound (key : String)
  | scriptNotFound (name : String)
deriving DecidableEq, Repr

/-- The `fmt.Errorf` message of each lookup error. -/
def ExecErr.message : ExecErr → String
  | .projectNotFound k => "project " ++ k ++ " not found"
  | .scriptNotFound s => "script " ++ s ++ " not found"

/-- What `ExecuteScript` decides before any process is spawned:
either a disabled-script result is returned directly, or a process is
spawned with the given command, working directory and environment
(environment entries are the `cmd.Env` slice in append order:
inherited, then script-level, then project-level). -/
inductive PrepOutcome where
  | disabled (result : ExecutionResult)
  | spawn (command workingDir : String) (env : List (String × String))
deriving DecidableEq, Repr

/-- The pre-spawn phase of `ExecuteScript` (executor.go lines 43–101):
project and script lookup, the disabled-script check, working
directory resolution, command expansion, and environment composition
(`cmd.Env = os.Environ()` + script environment + project environment,
each entry formatted as `KEY=value`; the embedding keeps the pairs). -/
def executeScriptPrep (projectConfig : ProjectConfig)
    (projects : List (String × AppProject))
    (projectKey scriptName : String)
    (osEnviron : List (String × String)) : Except ExecErr PrepOutcome :=
  match projects.lookup projectKey with
  | none => .error (.projectNotFound projectKey)
  | some project =>
    match projectConfig.scripts.lookup scriptName with
    | none => .error (.scriptNotFound scriptName)
    | some script =>
      match project.config.scripts.lookup scriptName with
      | some false =>
          .ok (.disabled
            { projectKey := projectKey, script := scriptName,
              success := false, output := "",
              error := "script disabled for this project" })
      | _ =>
        let workingDir :=
          if script.workingDir ≠ "" then
            let expanded :=
              replaceVariables script.workingDir project project.path
            if goIsAbs expanded then expanded
            else goPathJoin project.path expanded
          else project.path
        let command := replaceVariables script.command project workingDir
        .ok (.spawn command workingDir
          (osEnviron ++ script.environment ++ project.config.environment))

/-- The post-wait phase of `ExecuteScript` (executor.go lines
139–153): `waitErr = some e` stands for `cmd.Wait()` returning an
error (non-zero exit status or process-level failure, with `e` its
description); `none` stands for a zero exit status. -/
def finishResult (projectKey scriptName : String) (waitErr : Option String)
    (outputBuf errorBuf : String) : ExecutionResult :=
  match waitErr with
  | some e =>
      { projectKey := projectKey, script := scriptName, success := false,
        output := outputBuf,
        error := if errorBuf = "" then e else errorBuf }
  | none =>
      { projectKey := projectKey, script := scriptName, success := true,
        output := outputBuf, error := errorBuf }

/-- The batch error of `ExecuteScriptOnProjects`: either the
cancellation error `ctx.Err()` or a lookup error propagated from
`ExecuteScript`. -/
inductive BatchErr where
  | cancelled
  | execFailed (e : ExecErr)
deriving DecidableEq, Repr

/-- `ExecuteScriptOnProjects` (executor.go lines 158–181).
`done i` is the observation of `ctx.Done()` at loop iteration `i`;
`runOne` is the observable behavior of `ExecuteScript` on one key
(lookup error or a finished result). The loop appends each result,
returns early on cancellation or lookup error, and breaks after the
first non-success result. -/
def executeScriptOnProjects (done : Nat → Bool)
    (runOne : String → Except ExecErr ExecutionResult) :
    List String → Nat → List ExecutionResult × Option BatchErr
  | [], _ => ([], none)
  | k :: ks, i =>
      if done i then ([], some .cancelled)
      else
        match runOne k with
        | .error e => ([], some (.execFailed e))
        | .ok r =>
            if r.success then
              let rest := executeScriptOnProjects done runOne ks (i + 1)
              (r :: rest.1, rest.2)
            else ([r], none)

/-- The prefix of executed keys: everything up to and including the
first failing result. -/
def failFastCount (res : String → ExecutionResult) (keys : List String) :
    Nat :=
  (keys.findIdx fun k => !(res k).success) + 1

/-! ## Executor: claim theorems -/

/-- The value a spawned process observes for environment key `k`:
Go `os/exec` documents that for duplicate keys in `cmd.Env` the last
occurrence wins. -/
def lastEnvValue (env : List (String × String)) (k : String) :
    Option String :=
  env.foldl (fun acc p => if p.1 = k then some p.2 else acc) none

/-- Left-biased choice on options (first argument wins when present). -/
def optOr : Option String → Option String → Option String
  | some v, _ => some v
  | none, b => b

theorem foldl_lastEnv (k : String) :
    ∀ (env : List (String × String)) (init : Option String),
    env.foldl (fun acc p => if p.1 = k then some p.2 else acc) init =
      optOr (lastEnvValue env k) init := by
  intro env
  induction env with
  | nil => intro init; rfl
  | cons p rest ih =>
    intro init
    have hlast : lastEnvValue (p :: rest) k =
        optOr (lastEnvValue rest k) (if p.1 = k then some p.2 else none) := by
      show rest.foldl _ (if p.1 = k then some p.2 else none) = _
      rw [ih]
    show rest.foldl _ (if p.1 = k then some p.2 else init) = _
    rw [ih, hlast]
    cases hres : lastEnvValue rest k with
    | some v => rfl
    | none =>
      by_cases hp : p.1 = k
      · rw [if_pos hp, if_pos hp]
        rfl
      · rw [if_neg hp, if_neg hp]
        rfl

theorem lastEnvValue_append (a b : List (String × String)) (k : String) :
    lastEnvValue (a ++ b) k = optOr (lastEnvValue b k) (lastEnvValue a k) := by
  show (a ++ b).foldl _ none = _
  rw [List.foldl_append]
  exact foldl_lastEnv k b _

theorem lastEnvValue_eq_none_of_not_mem {l : List (String × String)}
    {k : String} (h : k ∉ l.map Prod.fst) : lastEnvValue l k = none := by
  induction l with
  | nil => rfl
  | cons p rest ih =>
    have hp : p.1 ≠ k := by
      intro he
      exact h (by simp [← he])
    have hrest : k ∉ rest.map Prod.fst := by
      intro hm
      exact h (by simp at hm ⊢; right; exact hm)
    show rest.foldl _ (if p.1 = k then some p.2 else none) = none
    rw [if_neg hp, foldl_lastEnv, ih hrest]
    rfl

theorem lookup_eq_of_mem_nodup {β : Type} {l : List (String × β)}
    (hnd : (l.map Prod.fst).Nodup) {k : String} {v : β}
    (h : (k, v) ∈ l) : l.lookup k = some v := by
  induction l with
  | nil => cases h
  | cons p t ih =>
    rcases List.mem_cons.mp h with h | h
    · subst h
      simp [List.lookup]
    · have hk : k ∈ t.map Prod.fst := List.mem_map.mpr ⟨(k, v), h, rfl⟩
      have hne : k ≠ p.1 := by
        intro he
        exact (List.nodup_cons.mp hnd).1 (he ▸ hk)
      have hbeq : (k == p.1) = false := by simp; exact hne
      rw [List.lookup, hbeq]
      exact ih (List.nodup_cons.mp hnd).2 h

theorem lastEnvValue_eq_of_mem_nodup {l : List (String × String)}
    (hnd : (l.map Prod.fst).Nodup) {k v : String}
    (h : (k, v) ∈ l) : lastEnvValue l k = some v := by
  induction l with
  | nil => cases h
  | cons p t ih =>
    show t.foldl _ (if p.1 = k then some p.2 else none) = some v
    rw [foldl_lastEnv]
    rcases List.mem_cons.mp h with h | h
    · subst h
      have hnone : lastEnvValue t k = none :=
        lastEnvValue_eq_none_of_not_mem (List.nodup_cons.mp hnd).1
      rw [hnone, if_pos rfl]
      rfl
    · have ht := ih (List.nodup_cons.mp hnd).2 h
      rw [ht]
      rfl

/-- C4. With no cancellation and no lookup failures, the sequential
batch executes the ordered keys front to back and returns exactly one
result per executed key: the map of the per-key results over the
prefix up to and including the first failing key (the whole list when
none fails), with no error; a cancellation observed at the head of an
iteration stops the batch before that key runs. -/
theorem executeScriptOnProjects_failFast (done : Nat → Bool)
    (runOne : String → Except ExecErr ExecutionResult)
    (res : String → ExecutionResult) (keys : List String)
    (hrun : ∀ k ∈ keys, runOne k = .ok (res k)) :
    ((∀ j, done j = false) → ∀ i : Nat,
      executeScriptOnProjects done runOne keys i =
        ((keys.take (failFastCount res keys)).map res, none)) ∧
    (∀ (i : Nat) (k : String) (ks : List String), keys = k :: ks →
      done i = true →
      executeScriptOnProjects done runOne keys i =
        ([], some .cancelled)) := by
  constructor
  · intro hdone
    induction keys with
    | nil => intro i; rfl
    | cons k ks ih =>
      intro i
      have hk : runOne k = .ok (res k) := hrun k (List.mem_cons_self k ks)
      have hrun' : ∀ k' ∈ ks, runOne k' = .ok (res k') :=
        fun k' h => hrun k' (List.mem_cons_of_mem _ h)
      show (if done i = true then _ else _) = _
      rw [hdone i]
      simp only [Bool.false_eq_true, if_false, hk]
      by_cases hs : (res k).success = true
      · simp only [hs, if_true]
        rw [ih hrun' (i + 1)]
        have hidx : (List.findIdx (fun k => !(res k).success) (k :: ks)) =
            (List.findIdx (fun k => !(res k).success) ks) + 1 := by
          rw [List.findIdx_cons]
          simp [hs]
        simp only [failFastCount, hidx, List.take_succ_cons, List.map_cons]
      · have hs' : (res k).success = false := by simpa using hs
        simp only [hs', Bool.false_eq_true, if_false]
        have hidx : (List.findIdx (fun k => !(res k).success) (k :: ks)) = 0 := by
          rw [List.findIdx_cons]
          simp [hs']
        simp [failFastCount, hidx]
  · intro i k ks hkeys hdone
    subst hkeys
    show (if done i = true then _ else _) = _
    rw [hdone, if_pos rfl]

theorem executeScriptOnProjects_failFast_witness :
    executeScriptOnProjects (fun _ => false)
      (fun k => .ok ⟨k, "build", !(k == "b"), "", ""⟩)
      ["a", "b", "c"] 0 =
      ([⟨"a", "build", true, "", ""⟩, ⟨"b", "build", false, "", ""⟩],
        none) := by
  have h := (executeScriptOnProjects_failFast (fun _ => false)
    (fun k => .ok ⟨k, "build", !(k == "b"), "", ""⟩)
    (fun k => ⟨k, "build", !(k == "b"), "", ""⟩)
    ["a", "b", "c"] (fun k _ => rfl)).1 (fun j => rfl) 0
  rw [h]
  rfl

/-- C5. When the project's manifest explicitly maps the requested
script to `false`, `ExecuteScript` returns — as a normal result, not
an error — a result with `Success = false` and the sentinel disabled
error text, and no process spawn happens (the outcome is `.disabled`,
never `.spawn`). -/
theorem executeScript_disabled (projectConfig : ProjectConfig)
    (projects : List (String × AppProject))
    (projectKey scriptName : String) (osEnviron : List (String × String))
    (project : AppProject) (script : Script)
    (hp : projects.lookup projectKey = some project)
    (hs : projectConfig.scripts.lookup scriptName = some script)
    (hd : project.config.scripts.lookup scriptName = some false) :
    executeScriptPrep projectConfig projects projectKey scriptName
        osEnviron =
      .ok (.disabled
        { projectKey := projectKey, script := scriptName, success := false,
          output := "", error := "script disabled for this project" }) ∧
    ∀ c w e, executeScriptPrep projectConfig projects projectKey scriptName
        osEnviron ≠ .ok (.spawn c w e) := by
  have hres : executeScriptPrep projectConfig projects projectKey scriptName
      osEnviron = .ok (.disabled
        { projectKey := projectKey, script := scriptName, success := false,
          output := "", error := "script disabled for this project" }) := by
    simp only [executeScriptPrep, hp, hs, hd]
  refine ⟨hres, ?_⟩
  intro c w e hcon
  rw [hres] at hcon
  cases hcon

theorem executeScript_disabled_witness :
    executeScriptPrep ⟨[("build", ⟨"make", "", []⟩)]⟩
      [("p", ⟨⟨"p", "ns", [], [("build", false)], []⟩, "/p"⟩)]
      "p" "build" [] =
      .ok (.disabled
        { projectKey := "p", script := "build", success := false,
          output := "", error := "script disabled for this project" }) :=
  (executeScript_disabled ⟨[("build", ⟨"make", "", []⟩)]⟩
    [("p", ⟨⟨"p", "ns", [], [("build", false)], []⟩, "/p"⟩)]
    "p" "build" [] ⟨⟨"p", "ns", [], [("build", false)], []⟩, "/p"⟩
    ⟨"make", "", []⟩ rfl rfl rfl).1

/-- C6. When `ExecuteScript` spawns a process, `cmd.Env` is the
inherited environment followed by the script's entries followed by
the project's entries; since the last occurrence of a key is the
effective value, a project-level entry wins over a script-level entry,
which wins over the inherited environment. -/
theorem executeScript_env_priority (projectConfig : ProjectConfig)
    (projects : List (String × AppProject))
    (projectKey scriptName : String) (osEnviron : List (String × String))
    (cmd wd : String) (env : List (String × String))
    (hspawn : executeScriptPrep projectConfig projects projectKey scriptName
      osEnviron = .ok (.spawn cmd wd env)) :
    ∃ project script,
      projects.lookup projectKey = some project ∧
      projectConfig.scripts.lookup scriptName = some script ∧
      env = osEnviron ++ script.environment ++
        project.config.environment ∧
      ((project.config.environment.map Prod.fst).Nodup →
       (script.environment.map Prod.fst).Nodup →
       ∀ key : String,
        (∀ v, (key, v) ∈ project.config.environment →
          lastEnvValue env key = some v) ∧
        (key ∉ project.config.environment.map Prod.fst →
          ∀ v, (key, v) ∈ script.environment →
            lastEnvValue env key = some v) ∧
        (key ∉ project.config.environment.map Prod.fst →
         key ∉ script.environment.map Prod.fst →
         lastEnvValue env key = lastEnvValue osEnviron key)) := by
  match hp : projects.lookup projectKey with
  | none =>
    rw [executeScriptPrep, hp] at hspawn
    cases hspawn
  | some project =>
  match hs : projectConfig.scripts.lookup scriptName with
  | none =>
    simp [executeScriptPrep, hp, hs] at hspawn
  | some script =>
  have henv : env = osEnviron ++ script.environment ++
      project.config.environment := by
    match hd : project.config.scripts.lookup scriptName with
    | some false =>
      simp [executeScriptPrep, hp, hs, hd] at hspawn
    | none =>
      simp only [executeScriptPrep, hp, hs, hd, Except.ok.injEq,
        PrepOutcome.spawn.injEq] at hspawn
      exact hspawn.2.2.symm
    | some true =>
      simp only [executeScriptPrep, hp, hs, hd, Except.ok.injEq,
        PrepOutcome.spawn.injEq] at hspawn
      exact hspawn.2.2.symm
  refine ⟨project, script, rfl, rfl, henv, ?_⟩
  intro hndp hnds key
  have hsplit : lastEnvValue env key =
      optOr (lastEnvValue project.config.environment key)
        (optOr (lastEnvValue script.environment key)
          (lastEnvValue osEnviron key)) := by
    rw [henv, lastEnvValue_append, lastEnvValue_append]
  refine ⟨?_, ?_, ?_⟩
  · intro v hv
    rw [hsplit, lastEnvValue_eq_of_mem_nodup hndp hv]
    rfl
  · intro hnp v hv
    rw [hsplit, lastEnvValue_eq_none_of_not_mem hnp,
      lastEnvValue_eq_of_mem_nodup hnds hv]
    rfl
  · intro hnp hns
    rw [hsplit, lastEnvValue_eq_none_of_not_mem hnp,
      lastEnvValue_eq_none_of_not_mem hns]
    rfl

theorem executeScript_env_priority_witness :
    ∃ env : List (String × String),
      executeScriptPrep ⟨[("build", ⟨"make", "", [("A", "sv"), ("B", "sb")]⟩)]⟩
        [("p", ⟨⟨"p", "ns", [], [], [("A", "pv")]⟩, "/p"⟩)] "p" "build"
        [("A", "ov"), ("C", "cv")] = .ok (.spawn "make" "/p" env) ∧
      lastEnvValue env "A" = some "pv" ∧
      lastEnvValue env "B" = some "sb" ∧
      lastEnvValue env "C" = some "cv" := by
  obtain ⟨project, script, hp, hs, henv, hpri⟩ :=
    executeScript_env_priority
      ⟨[("build", ⟨"make", "", [("A", "sv"), ("B", "sb")]⟩)]⟩
      [("p", ⟨⟨"p", "ns", [], [], [("A", "pv")]⟩, "/p"⟩)] "p" "build"
      [("A", "ov"), ("C", "cv")] "make" "/p"
      ([("A", "ov"), ("C", "cv")] ++ [("A", "sv"), ("B", "sb")] ++
        [("A", "pv")]) rfl
  have hproj : project = ⟨⟨"p", "ns", [], [], [("A", "pv")]⟩, "/p"⟩ := by
    have h2 := hp.symm.trans (show List.lookup "p"
      [("p", (⟨⟨"p", "ns", [], [], [("A", "pv")]⟩, "/p"⟩ : AppProject))] =
        some ⟨⟨"p", "ns", [], [], [("A", "pv")]⟩, "/p"⟩ from rfl)
    exact (Option.some.injEq _ _).mp h2
  have hscr : script = ⟨"make", "", [("A", "sv"), ("B", "sb")]⟩ := by
    have h2 := hs.symm.trans
      (show (⟨[("build", ⟨"make", "", [("A", "sv"), ("B", "sb")]⟩)]⟩ :
          ProjectConfig).scripts.lookup "build" =
        some ⟨"make", "", [("A", "sv"), ("B", "sb")]⟩ from rfl)
    exact (Option.some.injEq _ _).mp h2
  subst hproj
  subst hscr
  rcases hpri (by decide) (by decide) "A" with ⟨hA, _, _⟩
  rcases hpri (by decide) (by decide) "B" with ⟨_, hB, _⟩
  rcases hpri (by decide) (by decide) "C" with ⟨_, _, hC⟩
  refine ⟨_, rfl, ?_, ?_, ?_⟩
  · exact hA "pv" (by decide)
  · exact hB (by decide) "sb" (by decide)
  · rw [hC (by decide) (by decide)]
    rfl

/-- C7. When `cmd.Wait()` reports a failure (non-zero exit status or
process-level error), the result has `Success = false` and its error
text is the captured stderr buffer when non-empty, else the
process-level error description; on success the error text is the
stderr buffer. -/
theorem finishResult_failure_error (projectKey scriptName e outBuf errBuf :
    String) :
    (finishResult projectKey scriptName (some e) outBuf errBuf).success =
      false ∧
    (finishResult projectKey scriptName (some e) outBuf errBuf).error =
      (if errBuf = "" then e else errBuf) ∧
    (finishResult projectKey scriptName (some e) outBuf errBuf).output =
      outBuf ∧
    (finishResult projectKey scriptName none outBuf errBuf).success = true :=
  ⟨rfl, rfl, rfl, rfl⟩

/-! ## Variable substitution: order dependence and independence

`replaceVariables` iterates a Go map, so the four
`strings.ReplaceAll` calls happen in an unspecified order. When a
replacement value itself contains a placeholder token the outcome
depends on that order; when the template is a concatenation of
brace-free literals and complete placeholder tokens and no value
contains a brace, every order yields the same string. -/

/-- A string with no brace characters. -/
def braceFree (s : List Char) : Prop := ∀ c ∈ s, c ≠ '{' ∧ c ≠ '}'

instance (s : List Char) : Decidable (braceFree s) := by
  unfold braceFree
  infer_instance

/-- A placeholder token: an opening brace, a brace-free body, a
closing brace. -/
def IsPlaceholderToken (t : List Char) : Prop :=
  ∃ body, t = '{' :: (body ++ ['}']) ∧ braceFree body

/-- A piece of a template: a brace-free literal or a placeholder
token. -/
inductive TChunk where
  | lit (s : List Char)
  | tok (t : List Char)
deriving DecidableEq, Repr

/-- Concatenation of the chunks of a template. -/
def renderChunks : List TChunk → List Char
  | [] => []
  | .lit s :: cs => s ++ renderChunks cs
  | .tok t :: cs => t ++ renderChunks cs

/-- A template decomposition is well formed when literals are
brace-free and token chunks are placeholder tokens. -/
def ChunksWF (cs : List TChunk) : Prop :=
  ∀ ch ∈ cs, match ch with
    | .lit s => braceFree s
    | .tok t => IsPlaceholderToken t

/-- Effect of one `strings.ReplaceAll` call on one chunk. -/
def substTok (pat rep : List Char) : TChunk → TChunk
  | .lit s => .lit s
  | .tok t => if t = pat then .lit rep else .tok t

/-- Effect of a sequence of `strings.ReplaceAll` calls on one chunk. -/
def substChunkList (pairs : List (String × String)) (ch : TChunk) : TChunk :=
  pairs.foldl (fun ch pr => substTok pr.1.data pr.2.data ch) ch

/-- Replacement pairs whose patterns are placeholder tokens and whose
values are brace-free. -/
def PairsOK (pairs : List (String × String)) : Prop :=
  ∀ pr ∈ pairs, IsPlaceholderToken pr.1.data ∧ braceFree pr.2.data

theorem goReplaceAll_braceFree_prepend {pat rep : List Char} {pb : List Char}
    (hpat : pat = '{' :: pb) :
    ∀ (l rest : List Char), braceFree l →
    goReplaceAll pat rep (l ++ rest) = l ++ goReplaceAll pat rep rest := by
  intro l
  induction l with
  | nil => intro rest _; rfl
  | cons c l' ih =>
    intro rest hbf
    have hc : c ≠ '{' := ((hbf c (List.mem_cons_self c l')).1)
    have hbf' : braceFree l' := fun d hd => hbf d (List.mem_cons_of_mem _ hd)
    show goReplaceAll pat rep (c :: (l' ++ rest)) = _
    rw [goReplaceAll_cons]
    have hnp : ¬ (pat ≠ [] ∧ pat.isPrefixOf (c :: (l' ++ rest)) = true) := by
      rintro ⟨_, hpre⟩
      rw [List.isPrefixOf_iff_prefix, hpat] at hpre
      exact hc (List.cons_prefix_cons.mp hpre).1.symm
    rw [if_neg hnp, ih rest hbf']
    rfl

theorem body_prefix_eq :
    ∀ (pb qb rest : List Char), braceFree pb → braceFree qb →
    (pb ++ ['}']) <+: (qb ++ '}' :: rest) → pb = qb := by
  intro pb
  induction pb with
  | nil =>
    intro qb rest _ hq hpre
    cases qb with
    | nil => rfl
    | cons d qb' =>
      simp only [List.nil_append] at hpre
      have := (List.cons_prefix_cons.mp hpre).1
      exact absurd this.symm (hq d (List.mem_cons_self d qb')).2
  | cons c pb' ih =>
    intro qb rest hp hq hpre
    cases qb with
    | nil =>
      simp only [List.cons_append, List.nil_append] at hpre
      have := (List.cons_prefix_cons.mp hpre).1
      exact absurd this (hp c (List.mem_cons_self c pb')).2
    | cons d qb' =>
      simp only [List.cons_append] at hpre
      rcases List.cons_prefix_cons.mp hpre with ⟨hcd, hpre'⟩
      have hp' : braceFree pb' := fun x hx => hp x (List.mem_cons_of_mem _ hx)
      have hq' : braceFree qb' := fun x hx => hq x (List.mem_cons_of_mem _ hx)
      rw [hcd, ih qb' rest hp' hq' hpre']

theorem token_ne_not_prefix {p q : List Char} (hp : IsPlaceholderToken p)
    (hq : IsPlaceholderToken q) (hne : p ≠ q) (rest : List Char) :
    ¬ p <+: (q ++ rest) := by
  rcases hp with ⟨pb, hpeq, hpbf⟩
  rcases hq with ⟨qb, hqeq, hqbf⟩
  intro hpre
  rw [hpeq, hqeq] at hpre
  simp only [List.cons_append, List.append_assoc, List.singleton_append]
    at hpre
  rcases List.cons_prefix_cons.mp hpre with ⟨_, hpre'⟩
  exact hne (by rw [hpeq, hqeq, body_prefix_eq pb qb rest hpbf hqbf hpre'])

theorem goReplaceAll_tok_self {pat rep rest : List Char} (hne : pat ≠ []) :
    goReplaceAll pat rep (pat ++ rest) = rep ++ goReplaceAll pat rep rest := by
  match pat, hne with
  | c :: pat', _ =>
    show goReplaceAll (c :: pat') rep (c :: (pat' ++ rest)) = _
    rw [goReplaceAll_cons]
    have hpre : (c :: pat').isPrefixOf (c :: (pat' ++ rest)) = true := by
      rw [List.isPrefixOf_iff_prefix]
      exact List.prefix_append (c :: pat') rest
    rw [if_pos ⟨by simp, hpre⟩]
    have : List.drop (c :: pat').length (c :: (pat' ++ rest)) = rest := by
      show List.drop (c :: pat').length ((c :: pat') ++ rest) = rest
      exact List.drop_left (c :: pat') rest
    rw [this]

theorem goReplaceAll_tok_other {pat rep q : List Char}
    (hpat : IsPlaceholderToken pat) (hq : IsPlaceholderToken q)
    (hne : q ≠ pat) (rest : List Char) :
    goReplaceAll pat rep (q ++ rest) = q ++ goReplaceAll pat rep rest := by
  rcases hq with ⟨qb, hqeq, hqbf⟩
  rcases hpat with ⟨pb, hpeq, hpbf⟩
  subst hqeq
  show goReplaceAll pat rep ('{' :: ((qb ++ ['}']) ++ rest)) = _
  rw [goReplaceAll_cons]
  have hnp : ¬ (pat ≠ [] ∧
      pat.isPrefixOf ('{' :: ((qb ++ ['}']) ++ rest)) = true) := by
    rintro ⟨_, hpre⟩
    rw [List.isPrefixOf_iff_prefix] at hpre
    exact token_ne_not_prefix ⟨pb, hpeq, hpbf⟩ ⟨qb, rfl, hqbf⟩
      (fun he => hne he.symm) rest hpre
  rw [if_neg hnp]
  have hstep : goReplaceAll pat rep ((qb ++ ['}']) ++ rest) =
      qb ++ '}' :: goReplaceAll pat rep rest := by
    rw [List.append_assoc, List.singleton_append,
      goReplaceAll_braceFree_prepend hpeq qb ('}' :: rest) hqbf,
      goReplaceAll_cons]
    have hnp2 : ¬ (pat ≠ [] ∧ pat.isPrefixOf ('}' :: rest) = true) := by
      rintro ⟨_, hpre⟩
      rw [List.isPrefixOf_iff_prefix, hpeq] at hpre
      exact absurd (List.cons_prefix_cons.mp hpre).1 (by decide)
    rw [if_neg hnp2]
  rw [hstep]
  simp [List.append_assoc]

theorem goReplaceAll_render {pat rep : List Char}
    (hpat : IsPlaceholderToken pat) :
    ∀ cs : List TChunk, ChunksWF cs →
    goReplaceAll pat rep (renderChunks cs) =
      renderChunks (cs.map (substTok pat rep)) := by
  intro cs
  induction cs with
  | nil => intro _; rfl
  | cons ch cs' ih =>
    intro hwf
    have hwf' : ChunksWF cs' := fun c hc => hwf c (List.mem_cons_of_mem _ hc)
    have hch := hwf ch (List.mem_cons_self ch cs')
    match ch with
    | .lit s =>
      show goReplaceAll pat rep (s ++ renderChunks cs') = _
      rcases hpat with ⟨pb, hpeq, hpbf⟩
      rw [goReplaceAll_braceFree_prepend hpeq s (renderChunks cs') hch,
        ih hwf']
      rfl
    | .tok t =>
      show goReplaceAll pat rep (t ++ renderChunks cs') = _
      by_cases hte : t = pat
      · subst hte
        have htne : t ≠ [] := by
          rcases hch with ⟨body, hbe, _⟩
          rw [hbe]
          simp
        rw [goReplaceAll_tok_self htne, ih hwf']
        show _ = renderChunks (substTok t rep (.tok t) :: _)
        rw [substTok, if_pos rfl]
        rfl
      · rw [goReplaceAll_tok_other hpat hch hte (renderChunks cs'), ih hwf']
        show _ = renderChunks (substTok pat rep (.tok t) :: _)
        rw [substTok, if_neg hte]
        rfl

theorem chunksWF_map_substTok {pat rep : List Char} {cs : List TChunk}
    (hwf : ChunksWF cs) (hrep : braceFree rep) :
    ChunksWF (cs.map (substTok pat rep)) := by
  intro ch hch
  rcases List.mem_map.mp hch with ⟨ch₀, hch₀, heq⟩
  have h₀ := hwf ch₀ hch₀
  match ch₀, heq with
  | .lit s, heq =>
    rw [substTok] at heq
    rw [← heq]
    exact h₀
  | .tok t, heq =>
    rw [substTok] at heq
    by_cases hte : t = pat
    · rw [if_pos hte] at heq
      rw [← heq]
      exact hrep
    · rw [if_neg hte] at heq
      rw [← heq]
      exact h₀

theorem replaceVariablesWith_render :
    ∀ (pairs : List (String × String)) (cs : List TChunk),
    PairsOK pairs → ChunksWF cs →
    (replaceVariablesWith pairs ⟨renderChunks cs⟩).data =
      renderChunks (cs.map (substChunkList pairs)) := by
  intro pairs
  induction pairs with
  | nil =>
    intro cs _ _
    show renderChunks cs = renderChunks (cs.map fun ch => ch)
    rw [List.map_id']
  | cons pr rest ih =>
    intro cs hok hwf
    have hpr := hok pr (List.mem_cons_self pr rest)
    have hok' : PairsOK rest := fun q hq => hok q (List.mem_cons_of_mem _ hq)
    have hstep : strReplaceAll ⟨renderChunks cs⟩ pr.1 pr.2 =
        ⟨renderChunks (cs.map (substTok pr.1.data pr.2.data))⟩ := by
      show (⟨goReplaceAll pr.1.data pr.2.data (renderChunks cs)⟩ : String) = _
      rw [goReplaceAll_render hpr.1 cs hwf]
    show (replaceVariablesWith rest
        (strReplaceAll ⟨renderChunks cs⟩ pr.1 pr.2)).data = _
    rw [hstep, ih (cs.map (substTok pr.1.data pr.2.data))
      hok' (chunksWF_map_substTok hwf hpr.2), List.map_map]
    rfl

theorem substTok_comm {p₁ v₁ p₂ v₂ : List Char} (hne : p₁ ≠ p₂)
    (ch : TChunk) :
    substTok p₂ v₂ (substTok p₁ v₁ ch) =
      substTok p₁ v₁ (substTok p₂ v₂ ch) := by
  match ch with
  | .lit s => rfl
  | .tok t =>
    by_cases h1 : t = p₁
    · subst h1
      rw [substTok, if_pos rfl, substTok]
      rw [show substTok p₂ v₂ (.tok t) = .tok t from by
        rw [substTok, if_neg hne]]
      rw [substTok, if_pos rfl]
    · rw [show substTok p₁ v₁ (.tok t) = .tok t from by
        rw [substTok, if_neg h1]]
      by_cases h2 : t = p₂
      · subst h2
        rw [substTok, if_pos rfl]
        rfl
      · rw [substTok, if_neg h2, substTok, if_neg h1]

theorem substChunkList_perm {pairs₁ pairs₂ : List (String × String)}
    (hperm : List.Perm pairs₁ pairs₂)
    (hnd : (pairs₁.map fun pr => pr.1).Nodup) (ch : TChunk) :
    substChunkList pairs₁ ch = substChunkList pairs₂ ch := by
  apply List.Perm.foldl_eq' hperm
  intro x hx y hy z
  by_cases hxy : x.1 = y.1
  · have hxyeq : x = y := List.inj_on_of_nodup_map hnd hx hy hxy
    rw [hxyeq]
  · rw [substTok_comm (fun he => hxy (String.ext he)) z]

theorem pairs_fst_nodup (project : AppProject) (workingDir : String) :
    ((replacementPairs project workingDir).map fun pr => pr.1).Nodup := by
  show (["{projectRoot}", "{projectName}", "{namespace}",
    "{workingDir}"] : List String).Nodup
  decide

theorem pairsOK_replacementPairs (project : AppProject) (workingDir : String)
    (h1 : braceFree project.path.data)
    (h2 : braceFree project.config.name.data)
    (h3 : braceFree project.config.nspace.data)
    (h4 : braceFree workingDir.data) :
    PairsOK (replacementPairs project workingDir) := by
  intro pr hpr
  simp only [replacementPairs, List.mem_cons, List.not_mem_nil, or_false]
    at hpr
  rcases hpr with rfl | rfl | rfl | rfl
  · exact ⟨⟨"projectRoot".data, rfl, by decide⟩, h1⟩
  · exact ⟨⟨"projectName".data, rfl, by decide⟩, h2⟩
  · exact ⟨⟨"namespace".data, rfl, by decide⟩, h3⟩
  · exact ⟨⟨"workingDir".data, rfl, by decide⟩, h4⟩

/-- C9 counterexample. The claim that expansion does not depend on the
order of the four replacements *including when a replacement value
contains a placeholder token* is false: with `project.Path =
"{projectName}"`, applying `{projectRoot}` first and `{projectName}`
afterwards yields `"N"`, while the reverse iteration order of the same
replacement map yields `"{projectName}"`. -/
theorem replaceVariables_order_dependent_counterexample :
    List.Perm
      [("{projectName}", "N"), ("{namespace}", "ns"), ("{workingDir}", "/w"),
        ("{projectRoot}", "{projectName}")]
      (replacementPairs ⟨⟨"N", "ns", [], [], []⟩, "{projectName}"⟩ "/w") ∧
    replaceVariablesWith
      (replacementPairs ⟨⟨"N", "ns", [], [], []⟩, "{projectName}"⟩ "/w")
      "{projectRoot}" = "N" ∧
    replaceVariablesWith
      [("{projectName}", "N"), ("{namespace}", "ns"), ("{workingDir}", "/w"),
        ("{projectRoot}", "{projectName}")]
      "{projectRoot}" = "{projectName}" ∧
    ("N" : String) ≠ "{projectName}" :=
  ⟨by decide, by rfl, by rfl, by decide⟩

/-- C9 (amended). `replaceVariables` is a pure function of the
template, the context and the map iteration order; the expansion is
independent of the iteration order — hence identical on every call —
provided the template is a concatenation of brace-free literals and
complete placeholder tokens and no context value contains a brace
character. (Without these provisos the order can matter, see the
counterexample.) -/
theorem replaceVariables_order_independent (project : AppProject)
    (workingDir : String) (cs : List TChunk) (hwf : ChunksWF cs)
    (h1 : braceFree project.path.data)
    (h2 : braceFree project.config.name.data)
    (h3 : braceFree project.config.nspace.data)
    (h4 : braceFree workingDir.data)
    (l : List (String × String))
    (hl : List.Perm l (replacementPairs project workingDir)) :
    replaceVariablesWith l ⟨renderChunks cs⟩ =
      replaceVariables ⟨renderChunks cs⟩ project workingDir := by
  have hokc : PairsOK (replacementPairs project workingDir) :=
    pairsOK_replacementPairs project workingDir h1 h2 h3 h4
  have hokl : PairsOK l := fun pr hpr => hokc pr (hl.mem_iff.mp hpr)
  have hndl : (l.map fun pr => pr.1).Nodup :=
    ((hl.map fun pr => pr.1).nodup_iff).mpr (pairs_fst_nodup project workingDir)
  apply String.ext
  rw [replaceVariablesWith_render l cs hokl hwf]
  show _ = (replaceVariablesWith (replacementPairs project workingDir)
    ⟨renderChunks cs⟩).data
  rw [replaceVariablesWith_render _ cs hokc hwf]
  congr 1
  apply List.map_congr_left
  intro ch _
  exact substChunkList_perm hl hndl ch

theorem replaceVariables_order_independent_witness :
    replaceVariablesWith
      [("{workingDir}", "/w"), ("{namespace}", "ns"), ("{projectName}", "N"),
        ("{projectRoot}", "/root")]
      "{projectName} build" = "N build" := by
  have hwf : ChunksWF [.tok "{projectName}".data, .lit " build".data] := by
    intro ch hch
    rcases List.mem_cons.mp hch with rfl | hch
    · exact ⟨"projectName".data, rfl, by decide⟩
    · rcases List.mem_cons.mp hch with rfl | hch
      · exact (by decide : braceFree " build".data)
      · cases hch
  have h := replaceVariables_order_independent
    ⟨⟨"N", "ns", [], [], []⟩, "/root"⟩ "/w"
    [.tok "{projectName}".data, .lit " build".data] hwf
    (by decide) (by decide) (by decide) (by decide)
    [("{workingDir}", "/w"), ("{namespace}", "ns"), ("{projectName}", "N"),
      ("{projectRoot}", "/root")]
    (by decide)
  have hrender : (⟨renderChunks
      [.tok "{projectName}".data, .lit " build".data]⟩ : String) =
      "{projectName} build" := rfl
  rw [hrender] at h
  rw [h]
  rfl

/-! ## Dependency scanner enrichment
(`internal/dependencyscanner/go/example_usage.go`, types from the
scanner package)

`ScanProject` and `ScanImports` read `go.mod` and source files; their
outputs — the declared dependency list and the observed import list —
are the inputs of the pure enrichment step embedded here. -/

/-- `dependencyscanner.Dependency`. -/
structure Dependency where
  source : String
  target : String
  version : String
  isDirect : Bool
  importPaths : List String
deriving DecidableEq, Repr

/-- `strings.Split(s, "/")`: split at every slash; always at least one
(possibly empty) component. -/
def splitSlash : List Char → List (List Char)
  | [] => [[]]
  | c :: cs =>
      if c = '/' then [] :: splitSlash cs
      else
        match splitSlash cs with
        | [] => [[c]]
        | p :: rest => (c :: p) :: rest

/-- Slash-join of path components. -/
def joinSlash : List (List Char) → List Char
  | [] => []
  | [x] => x
  | x :: rest => x ++ '/' :: joinSlash rest

/-- `filepath.Join(a, b, c)`: empty components are skipped, the rest
joined with slashes (`filepath.Clean` normalization of `.`/`..`
components is not modeled; package-path components never contain
them). -/
def goJoin3 (a b c : List Char) : List Char :=
  joinSlash (([a, b, c]).filter fun x => x ≠ [])

/-- `extractBasePackage` (example_usage.go lines 107–120): import
paths without a dot are returned whole; dotted paths with at least
three components are cut to their first three components. -/
def extractBasePackage (importPath : String) : String :=
  if ¬ importPath.data.contains '.' then importPath
  else
    let parts := splitSlash importPath.data
    if parts.length ≥ 3 then
      ⟨goJoin3 (parts.getD 0 []) (parts.getD 1 []) (parts.getD 2 [])⟩
    else importPath

/-- The bucket of the `usedImports` map for a base package: the
observed imports whose extracted base equals it, in observation
order (example_usage.go lines 87–92). -/
def usedImportsFor (imports : List String) (base : String) : List String :=
  imports.filter fun imp => extractBasePackage imp == base

/-- The enrichment loop of `AnalyzeProjectDependencies`
(example_usage.go lines 94–100): a dependency whose target occurs as
a key of `usedImports` gets its `ImportPaths` replaced by that bucket;
other dependencies are untouched. -/
def enrichDependencies (deps : List Dependency) (imports : List String) :
    List Dependency :=
  deps.map fun d =>
    let paths := usedImportsFor imports d.target
    if paths ≠ [] then { d with importPaths := paths } else d

/-- The spec's words for the enriched `ImportPaths`: the subset of
observed imports of which the declared identifier is a textual
prefix. -/
def specPrefixImportPaths (target : String) (imports : List String) :
    List String :=
  imports.filter fun imp => target.data.isPrefixOf imp.data

/-- C10 counterexample. A declared dependency `duck/common`
prefix-matches the observed import `duck/common/subpkg`, and the
spec's prefix rule attributes that import to it; but the code groups
imports by `extractBasePackage`, which returns dot-free paths whole,
so the import's base is `duck/common/subpkg` ≠ `duck/common` and the
dependency's `ImportPaths` stays empty. -/
theorem enrichDependencies_not_longest_prefix :
    ("duck/common" : String).data.isPrefixOf
      ("duck/common/subpkg" : String).data = true ∧
    specPrefixImportPaths "duck/common" ["duck/common/subpkg"] =
      ["duck/common/subpkg"] ∧
    (enrichDependencies [⟨"p", "duck/common", "", true, []⟩]
        ["duck/common/subpkg"]).map Dependency.importPaths = [[]] ∧
    ([[]] : List (List String)) ≠ [["duck/common/subpkg"]] :=
  ⟨by decide, by rfl, by rfl, by decide⟩

/-- C10 (amended). After enrichment, a dependency has its
`ImportPaths` equal to the observed imports whose *extracted base
package* equals its declared identifier — exact base equality (first
three components for dotted paths, the whole path for dot-free ones),
not longest-prefix matching — whenever at least one such import
exists; dependencies with no base-equal import keep their previous
`ImportPaths`. -/
theorem enrichDependencies_base_equality (deps : List Dependency)
    (imports : List String) :
    (enrichDependencies deps imports).length = deps.length ∧
    ∀ (i : Nat) (h : i < deps.length),
      (enrichDependencies deps imports).get
          ⟨i, by simpa [enrichDependencies] using h⟩ =
        if ∃ imp ∈ imports, extractBasePackage imp = (deps.get ⟨i, h⟩).target
        then { (deps.get ⟨i, h⟩) with
                importPaths :=
                  usedImportsFor imports (deps.get ⟨i, h⟩).target }
        else deps.get ⟨i, h⟩ := by
  constructor
  · simp [enrichDependencies]
  · intro i h
    have hget : (enrichDependencies deps imports).get
        ⟨i, by simpa [enrichDependencies] using h⟩ =
        (fun d => let paths := usedImportsFor imports d.target
          if paths ≠ [] then { d with importPaths := paths } else d)
          (deps.get ⟨i, h⟩) := by
      simp [enrichDependencies, List.get_eq_getElem, List.getElem_map]
    rw [hget]
    have hiff : usedImportsFor imports (deps.get ⟨i, h⟩).target ≠ [] ↔
        ∃ imp ∈ imports,
          extractBasePackage imp = (deps.get ⟨i, h⟩).target := by
      rw [usedImportsFor, Ne, List.filter_eq_nil_iff]
      push_neg
      constructor
      · rintro ⟨imp, himp, hbeq⟩
        exact ⟨imp, himp, by simpa using hbeq⟩
      · rintro ⟨imp, himp, hbeq⟩
        exact ⟨imp, himp, by simpa using hbeq⟩
    by_cases hcase : ∃ imp ∈ imports,
        extractBasePackage imp = (deps.get ⟨i, h⟩).target
    · rw [if_pos hcase]
      show (if usedImportsFor imports (deps.get ⟨i, h⟩).target ≠ [] then _
        else _) = _
      rw [if_pos (hiff.mpr hcase)]
    · rw [if_neg hcase]
      show (if usedImportsFor imports (deps.get ⟨i, h⟩).target ≠ [] then _
        else _) = _
      rw [if_neg (fun hne => hcase (hiff.mp hne))]

theorem enrichDependencies_base_equality_witness :
    (0 : Nat) < ([⟨"p", "github.com/user/repo", "v1", true, []⟩] :
      List Dependency).length ∧
    (enrichDependencies [⟨"p", "github.com/user/repo", "v1", true, []⟩]
        ["github.com/user/repo/pkg", "other/thing"]).get ⟨0, by decide⟩ =
      ⟨"p", "github.com/user/repo", "v1", true,
        ["github.com/user/repo/pkg"]⟩ := by
  refine ⟨by decide, ?_⟩
  have h := (enrichDependencies_base_equality
    [⟨"p", "github.com/user/repo", "v1", true, []⟩]
    ["github.com/user/repo/pkg", "other/thing"]).2 0 (by decide)
  rw [h]
  rw [if_pos ⟨"github.com/user/repo/pkg", by decide, by decide⟩]
  rfl

example :
    (resolveExecutionOrder [("b", []), ("a", []), ("c", [])]).map
      ResolutionResult.executionOrder = .ok ["a", "b", "c"] := by rfl

example :
    (resolveExecutionOrder [("shared/db", []), ("core/svc", ["shared/db"])]).map
      ResolutionResult.executionOrder = .ok ["shared/db", "core/svc"] := by rfl

example :
    resolveExecutionOrder [("x", ["y"]), ("y", ["x"])] =
      .error .circular := by rfl

example :
    resolveExecutionOrder [("a", ["z"])] = .error (.dangling "a" "z") := by
  rfl

/-! ## Config sync: `updateAppYamlDependencies` (`internal/cli/commands.go`)

`syncDependenciesToConfig` rewrites each manifest found under the project
path; for `app.yaml` it calls `updateAppYamlDependencies`, which splits
the file into lines, collects the existing `dependencies:` list entries,
merges them with the discovered dependencies into a sorted de-duplicated
set, and rebuilds the file with the merged list replacing the old
entries. The embedding works on `List Char` (file contents) and
`List (List Char)` (lines). -/

/-- `unicode.IsSpace` as used by `strings.TrimSpace`, restricted to the
Latin-1 code points (`\t \n \v \f \r`, space, U+0085, U+00A0); higher
Unicode space code points do not occur in the concrete inputs used
here. -/
def isGoSpace (c : Char) : Bool :=
  c.toNat == 9 || c.toNat == 10 || c.toNat == 11 || c.toNat == 12 ||
    c.toNat == 13 || c.toNat == 32 || c.toNat == 133 || c.toNat == 160

/-- Trim characters satisfying `p` from the left (`strings.TrimLeft`). -/
def trimLeftBy (p : Char → Bool) (s : List Char) : List Char := s.dropWhile p

/-- Trim characters satisfying `p` from the right (`strings.TrimRight`). -/
def trimRightBy (p : Char → Bool) (s : List Char) : List Char :=
  (s.reverse.dropWhile p).reverse

/-- Trim from both ends (`strings.Trim` with cutset `p`). -/
def trimBy (p : Char → Bool) (s : List Char) : List Char :=
  trimRightBy p (trimLeftBy p s)

/-- `strings.TrimSpace`. -/
def goTrimSpace (s : List Char) : List Char := trimBy isGoSpace s

/-- Member of the cutset `"\"'"` used by `strings.Trim(dep, "\"'")`. -/
def isQuoteChar (c : Char) : Bool := c == '"' || c == '\''

/-- `strings.Trim(s, "\"'")`. -/
def goTrimQuotes (s : List Char) : List Char := trimBy isQuoteChar s

/-- Member of the cutset `" \t"` used for the indent computation. -/
def isIndentChar (c : Char) : Bool := c == ' ' || c == '\t'

/-- `line[:len(line)-len(strings.TrimLeft(line, " \t"))]`: the leading
run of spaces and tabs. -/
def indentOf (line : List Char) : List Char := line.takeWhile isIndentChar

/-- `strings.TrimPrefix`. -/
def goTrimPrefix (pre s : List Char) : List Char :=
  if pre.isPrefixOf s then s.drop pre.length else s

/-- The literal `"dependencies:"`. -/
def depsHeader : List Char := "dependencies:".data

/-- `strings.HasPrefix(strings.TrimSpace(line), "dependencies:")`. -/
def isDepsLine (line : List Char) : Bool :=
  depsHeader.isPrefixOf (goTrimSpace line)

/-- `strings.HasPrefix(strings.TrimSpace(line), "-")`. -/
def isDashLine (line : List Char) : Bool :=
  "-".data.isPrefixOf (goTrimSpace line)

/-- `strings.HasPrefix(strings.TrimSpace(line), "#")`. -/
def isCommentLine (line : List Char) : Bool :=
  "#".data.isPrefixOf (goTrimSpace line)

/-- `strings.TrimSpace(line) == ""`. -/
def isBlankLine (line : List Char) : Bool := (goTrimSpace line).isEmpty

/-- The dependency name extracted from a list-item line:
`strings.Trim(strings.TrimSpace(strings.TrimPrefix(trimmed, "-")), "\"'")`
with `trimmed = strings.TrimSpace(line)`. -/
def extractDep (line : List Char) : List Char :=
  goTrimQuotes (goTrimSpace (goTrimPrefix "-".data (goTrimSpace line)))

/-- `strings.Split(s, sep)` for a one-character separator. -/
def splitOnChar (sep : Char) : List Char → List (List Char)
  | [] => [[]]
  | c :: rest =>
      if c = sep then [] :: splitOnChar sep rest
      else
        match splitOnChar sep rest with
        | [] => [[c]]
        | l :: ls => (c :: l) :: ls

/-- `strings.Join(lines, sep)` for a one-character separator. -/
def joinWith (sep : Char) : List (List Char) → List Char
  | [] => []
  | [l] => l
  | l :: l2 :: ls => l ++ sep :: joinWith sep (l2 :: ls)

/-- First pass of `updateAppYamlDependencies`: walk the lines with the
`inDependencies` flag, collecting the extracted name of every `-` item
after a `dependencies:` header; a non-blank non-comment non-item line
while in the section ends the pass (`break`). The Go code stores the
names in a set; the list collected here is later de-duplicated. -/
def collectDeps : List (List Char) → Bool → List (List Char)
  | [], _ => []
  | line :: rest, inDeps =>
      if isDepsLine line then collectDeps rest true
      else if inDeps then
        if isDashLine line then extractDep line :: collectDeps rest inDeps
        else if isBlankLine line || isCommentLine line then
          collectDeps rest inDeps
        else []
      else collectDeps rest inDeps

/-- The skip test of the second pass, looking at the candidate line and
(for blank lines) the line after it: `strings.HasPrefix(trimmed, "-") ||
(trimmed == "" && i+2 < len(lines) && HasPrefix(TrimSpace(lines[i+2]),
"-"))`. -/
def skipCond (line : List Char) (rest : List (List Char)) : Bool :=
  isDashLine line ||
    (isBlankLine line &&
      match rest with
      | [] => false
      | r :: _ => isDashLine r)

/-- The inner `for i+1 < len(lines)` loop of the second pass: advance
past old dependency items (and blank lines followed by an item). -/
def skipDepItems : List (List Char) → List (List Char)
  | [] => []
  | line :: rest =>
      if skipCond line rest then skipDepItems rest else line :: rest

/-- `fmt.Sprintf("%s  - \"%s\"", indentLevel, dep)`. -/
def depItemLine (indent dep : List Char) : List Char :=
  indent ++ "  - \"".data ++ dep ++ "\"".data

/-- Second pass (fuelled so that the recursion is structural and
kernel-reducible; `rebuildLines` supplies fuel that is never exhausted):
copy lines; at a `dependencies:` header emit the header, the merged
items at the header's indent plus two spaces, and continue after the
skipped old items. -/
def rebuildAux (merged : List (List Char)) :
    Nat → List (List Char) → List (List Char)
  | 0, ls => ls
  | _ + 1, [] => []
  | fuel + 1, line :: rest =>
      if isDepsLine line then
        line :: merged.map (depItemLine (indentOf line)) ++
          rebuildAux merged fuel (skipDepItems rest)
      else line :: rebuildAux merged fuel rest

/-- Second pass of `updateAppYamlDependencies` on a line list. -/
def rebuildLines (merged lines : List (List Char)) : List (List Char) :=
  rebuildAux merged lines.length lines

/-- `sort.Strings`' order on `List Char` (code-point lexicographic, as
for `sleR`). -/
def sleC (a b : List Char) : Prop := goStrLtB b a = false

instance : DecidableRel sleC := fun a b => by
  unfold sleC; infer_instance

/-- The merged dependency set: keys of the union map, sorted
(`sort.Strings(mergedDeps)`). A sorted duplicate-free list with the same
members is unique, so sorting the de-duplicated concatenation is
faithful regardless of map iteration order. -/
def mergedDepsOf (existing deps : List (List Char)) : List (List Char) :=
  List.insertionSort sleC (existing ++ deps).dedup

/-- `updateAppYamlDependencies` on file contents (the file I/O shell
around it reads and rewrites the same path). `dependenciesFound` is true
exactly when some line has the `dependencies:` prefix: the first pass
can only `break` with `inDependencies` already set, i.e. after the first
such line was seen, and before that line no `break` is reachable, so the
flag equals `lines.any isDepsLine`. -/
def updateAppYaml (content : List Char) (dependencies : List (List Char)) :
    List Char :=
  let lines := splitOnChar '\n' content
  let merged := mergedDepsOf (collectDeps lines false) dependencies
  let result := rebuildLines merged lines
  let result :=
    if !lines.any isDepsLine && !merged.isEmpty then
      result ++ depsHeader :: merged.map (depItemLine [])
    else result
  joinWith '\n' result

theorem splitOnChar_ne_nil (sep : Char) (s : List Char) :
    splitOnChar sep s ≠ [] := by
  induction s with
  | nil => simp [splitOnChar]
  | cons c rest ih =>
    simp only [splitOnChar]
    by_cases h : c = sep
    · simp [h]
    · simp only [h, if_false]
      cases hs : splitOnChar sep rest with
      | nil => simp
      | cons l ls => simp

theorem mem_splitOnChar_not_mem {sep : Char} {s l : List Char}
    (hl : l ∈ splitOnChar sep s) : sep ∉ l := by
  induction s generalizing l with
  | nil =>
    simp [splitOnChar] at hl
    simp [hl]
  | cons c rest ih =>
    simp only [splitOnChar] at hl
    by_cases h : c = sep
    · simp only [h, if_true] at hl
      rcases List.mem_cons.1 hl with h1 | h1
      · simp [h1]
      · exact ih h1
    · simp only [h, if_false] at hl
      cases hs : splitOnChar sep rest with
      | nil => exact absurd hs (splitOnChar_ne_nil sep rest)
      | cons m ms =>
        rw [hs] at hl
        rcases List.mem_cons.1 hl with h1 | h1
        · subst h1
          intro hc
          rcases List.mem_cons.1 hc with h2 | h2
          · exact h h2.symm
          · exact ih (hs ▸ List.mem_cons_self m ms) h2
        · exact ih (hs ▸ List.mem_cons.2 (Or.inr h1))

theorem joinWith_cons_cons (sep c : Char) (m : List Char)
    (ms : List (List Char)) :
    joinWith sep ((c :: m) :: ms) = c :: joinWith sep (m :: ms) := by
  cases ms with
  | nil => rfl
  | cons m2 ms' => rfl

theorem joinWith_splitOnChar (sep : Char) (s : List Char) :
    joinWith sep (splitOnChar sep s) = s := by
  induction s with
  | nil => rfl
  | cons c rest ih =>
    simp only [splitOnChar]
    by_cases h : c = sep
    · simp only [h, if_true]
      cases hs : splitOnChar sep rest with
      | nil => exact absurd hs (splitOnChar_ne_nil sep rest)
      | cons m ms =>
        rw [hs] at ih
        show joinWith sep ([] :: m :: ms) = sep :: rest
        simp only [joinWith, List.nil_append, ih]
    · simp only [h, if_false]
      cases hs : splitOnChar sep rest with
      | nil => exact absurd hs (splitOnChar_ne_nil sep rest)
      | cons m ms =>
        rw [hs] at ih
        rw [joinWith_cons_cons, ih]

theorem splitOnChar_no_sep {sep : Char} {l : List Char} (h : sep ∉ l) :
    splitOnChar sep l = [l] := by
  induction l with
  | nil => rfl
  | cons c rest ih =>
    have hc : ¬ c = sep := fun hc => h (hc ▸ List.mem_cons_self c rest)
    have hr : sep ∉ rest := fun hr => h (List.mem_cons.2 (Or.inr hr))
    simp only [splitOnChar, hc, if_false, ih hr]

theorem splitOnChar_append {sep : Char} {x : List Char} (t : List Char)
    (h : sep ∉ x) :
    splitOnChar sep (x ++ sep :: t) = x :: splitOnChar sep t := by
  induction x with
  | nil => simp [splitOnChar]
  | cons c x' ih =>
    have hc : ¬ c = sep := fun hc => h (hc ▸ List.mem_cons_self c x')
    have hx : sep ∉ x' := fun hr => h (List.mem_cons.2 (Or.inr hr))
    simp only [List.cons_append, splitOnChar, hc, if_false]
    rw [List.append_eq, ih hx]

theorem splitOnChar_joinWith {sep : Char} :
    ∀ {L : List (List Char)}, L ≠ [] → (∀ l ∈ L, sep ∉ l) →
      splitOnChar sep (joinWith sep L) = L := by
  intro L
  induction L with
  | nil => intro h; exact absurd rfl h
  | cons l ls ih =>
    intro _ hmem
    cases ls with
    | nil =>
      show splitOnChar sep (joinWith sep [l]) = [l]
      exact splitOnChar_no_sep (hmem l (List.mem_cons_self l []))
    | cons l2 ls' =>
      show splitOnChar sep (l ++ sep :: joinWith sep (l2 :: ls')) = _
      rw [splitOnChar_append _ (hmem l (List.mem_cons_self _ _))]
      rw [ih (by simp) (fun m hm => hmem m (List.mem_cons.2 (Or.inr hm)))]

/-- A dependency key that round-trips through the quoted list syntax
`- "key"`: it contains no newline and neither starts nor ends with a
quote character. -/
def goodKeyB (k : List Char) : Bool :=
  !k.contains '\n' &&
    (match k.head? with
     | some c => !isQuoteChar c
     | none => true) &&
    (match k.reverse.head? with
     | some c => !isQuoteChar c
     | none => true)

theorem goodKeyB_newline {k : List Char} (h : goodKeyB k = true) :
    '\n' ∉ k := by
  unfold goodKeyB at h
  simp only [Bool.and_eq_true] at h
  obtain ⟨⟨h2, _⟩, _⟩ := h
  rw [Bool.not_eq_true'] at h2
  intro hmem
  rw [← List.elem_iff] at hmem
  rw [show k.contains '\n' = k.elem '\n' from rfl, hmem] at h2
  cases h2

theorem goodKeyB_head {k : List Char} (h : goodKeyB k = true)
    {c : Char} {t : List Char} (hk : k = c :: t) : isQuoteChar c = false := by
  unfold goodKeyB at h
  simp only [Bool.and_eq_true] at h
  obtain ⟨⟨_, h2⟩, _⟩ := h
  rw [hk] at h2
  simp only [List.head?_cons] at h2
  simpa using h2

theorem goodKeyB_last {k : List Char} (h : goodKeyB k = true)
    {c : Char} {t : List Char} (hk : k.reverse = c :: t) :
    isQuoteChar c = false := by
  unfold goodKeyB at h
  simp only [Bool.and_eq_true] at h
  obtain ⟨_, h2⟩ := h
  rw [hk] at h2
  simp only [List.head?_cons] at h2
  simpa using h2

theorem dropWhile_append_all {p : Char → Bool} {a : List Char}
    (h : ∀ c ∈ a, p c = true) (b : List Char) :
    (a ++ b).dropWhile p = b.dropWhile p := by
  induction a with
  | nil => rfl
  | cons c a' ih =>
    rw [List.cons_append, List.dropWhile_cons, h c (List.mem_cons_self c a')]
    simp only [if_true]
    exact ih (fun x hx => h x (List.mem_cons.2 (Or.inr hx)))

theorem trimRightBy_append_singleton {p : Char → Bool} {c : Char}
    (hc : p c = false) (l : List Char) :
    trimRightBy p (l ++ [c]) = l ++ [c] := by
  unfold trimRightBy
  rw [List.reverse_append]
  simp only [List.reverse_cons, List.reverse_nil, List.nil_append,
    List.singleton_append, List.dropWhile_cons, hc]
  simp

theorem head_dropWhile_false {p : Char → Bool} :
    ∀ {l : List Char} {c : Char} {t : List Char},
      l.dropWhile p = c :: t → p c = false := by
  intro l
  induction l with
  | nil => intro c t h; simp [List.dropWhile] at h
  | cons a l' ih =>
    intro c t h
    rw [List.dropWhile_cons] at h
    by_cases ha : p a = true
    · rw [ha] at h
      simp only [if_true] at h
      exact ih h
    · rw [Bool.not_eq_true] at ha
      rw [ha] at h
      simp only [Bool.false_eq_true, if_false, List.cons.injEq] at h
      rw [← h.1]
      exact ha

theorem reverse_trimBy (p : Char → Bool) (s : List Char) :
    (trimBy p s).reverse = (trimLeftBy p s).reverse.dropWhile p := by
  unfold trimBy trimRightBy
  rw [List.reverse_reverse]

theorem head_trimBy_false {p : Char → Bool} {s : List Char} {c : Char}
    {t : List Char} (h : trimBy p s = c :: t) : p c = false := by
  have hpre : trimBy p s <+: trimLeftBy p s := by
    rw [← List.reverse_suffix]
    rw [reverse_trimBy]
    exact List.dropWhile_suffix p
  rcases hpre with ⟨r, hr⟩
  rw [h] at hr
  have hx : trimLeftBy p s = c :: (t ++ r) := by rw [← hr]; simp
  exact head_dropWhile_false hx

theorem last_trimBy_false {p : Char → Bool} {s : List Char} {c : Char}
    {t : List Char} (h : (trimBy p s).reverse = c :: t) : p c = false := by
  rw [reverse_trimBy] at h
  exact head_dropWhile_false h

theorem mem_trimLeftBy {p : Char → Bool} {c : Char} {s : List Char}
    (h : c ∈ trimLeftBy p s) : c ∈ s :=
  (List.dropWhile_sublist p).subset h

theorem mem_trimRightBy {p : Char → Bool} {c : Char} {s : List Char}
    (h : c ∈ trimRightBy p s) : c ∈ s := by
  unfold trimRightBy at h
  rw [List.mem_reverse] at h
  have h2 := (List.dropWhile_sublist p).subset h
  rwa [List.mem_reverse] at h2

theorem mem_trimBy {p : Char → Bool} {c : Char} {s : List Char}
    (h : c ∈ trimBy p s) : c ∈ s :=
  mem_trimLeftBy (mem_trimRightBy h)

theorem mem_goTrimPrefix {pre s : List Char} {c : Char}
    (h : c ∈ goTrimPrefix pre s) : c ∈ s := by
  unfold goTrimPrefix at h
  by_cases hp : pre.isPrefixOf s
  · rw [if_pos hp] at h
    exact List.drop_subset pre.length s h
  · rwa [if_neg hp] at h

theorem mem_extractDep {l : List Char} {c : Char}
    (h : c ∈ extractDep l) : c ∈ l :=
  mem_trimBy (mem_goTrimPrefix (mem_trimBy (mem_trimBy h)))

theorem goodKeyB_extractDep {l : List Char} (hl : '\n' ∉ l) :
    goodKeyB (extractDep l) = true := by
  unfold goodKeyB
  simp only [Bool.and_eq_true]
  refine ⟨⟨?_, ?_⟩, ?_⟩
  · rw [Bool.not_eq_true']
    rw [show (extractDep l).contains '\n' = (extractDep l).elem '\n'
      from rfl]
    rw [← Bool.not_eq_true]
    intro hc
    exact hl (mem_extractDep (List.elem_iff.1 hc))
  · cases he : extractDep l with
    | nil => rfl
    | cons c t =>
      simp only [List.head?_cons]
      have he' : trimBy isQuoteChar
          (goTrimSpace (goTrimPrefix "-".data (goTrimSpace l))) = c :: t := he
      have hq : isQuoteChar c = false := head_trimBy_false he'
      simp [hq]
  · cases he : (extractDep l).reverse with
    | nil => rfl
    | cons c t =>
      simp only [List.head?_cons]
      have he' : (trimBy isQuoteChar
          (goTrimSpace (goTrimPrefix "-".data (goTrimSpace l)))).reverse =
            c :: t := he
      have hq : isQuoteChar c = false := last_trimBy_false he'
      simp [hq]

theorem isGoSpace_of_indent {c : Char} (h : isIndentChar c = true) :
    isGoSpace c = true := by
  unfold isIndentChar at h
  simp only [Bool.or_eq_true] at h
  rcases h with h1 | h1
  · rw [beq_iff_eq.1 h1]; rfl
  · rw [beq_iff_eq.1 h1]; rfl

theorem indentOf_indent {l : List Char} :
    ∀ c ∈ indentOf l, isIndentChar c = true := by
  intro c hc
  exact List.mem_takeWhile_imp hc

theorem goTrimSpace_depItemLine {ind : List Char}
    (hind : ∀ c ∈ ind, isIndentChar c = true) (m : List Char) :
    goTrimSpace (depItemLine ind m) = '-' :: ' ' :: '"' :: (m ++ ['"']) := by
  have hsp : ∀ c ∈ ind, isGoSpace c = true :=
    fun c hc => isGoSpace_of_indent (hind c hc)
  have hshape : depItemLine ind m =
      ind ++ (' ' :: ' ' :: '-' :: ' ' :: '"' :: (m ++ ['"'])) := by
    unfold depItemLine
    simp
  rw [hshape]
  unfold goTrimSpace trimBy trimLeftBy
  rw [dropWhile_append_all hsp]
  simp only [List.dropWhile_cons, show isGoSpace ' ' = true from rfl,
    show isGoSpace '-' = false from rfl, if_true, Bool.false_eq_true,
    if_false]
  have hsh2 : '-' :: ' ' :: '"' :: (m ++ ['"']) =
      ('-' :: ' ' :: '"' :: m) ++ ['"'] := by simp
  rw [hsh2, trimRightBy_append_singleton (show isGoSpace '"' = false
    from rfl)]

theorem extractDep_depItemLine {ind m : List Char}
    (hind : ∀ c ∈ ind, isIndentChar c = true) (hm : goodKeyB m = true) :
    extractDep (depItemLine ind m) = m := by
  unfold extractDep
  rw [goTrimSpace_depItemLine hind]
  have hpre : goTrimPrefix "-".data ('-' :: ' ' :: '"' :: (m ++ ['"'])) =
      ' ' :: '"' :: (m ++ ['"']) := by
    unfold goTrimPrefix
    rw [if_pos (by rfl)]
    rfl
  rw [hpre]
  have h2 : goTrimSpace (' ' :: '"' :: (m ++ ['"'])) =
      '"' :: (m ++ ['"']) := by
    unfold goTrimSpace trimBy trimLeftBy
    simp only [List.dropWhile_cons, show isGoSpace ' ' = true from rfl,
      show isGoSpace '"' = false from rfl, if_true, Bool.false_eq_true,
      if_false]
    have hsh : '"' :: (m ++ ['"']) = ('"' :: m) ++ ['"'] := by simp
    rw [hsh, trimRightBy_append_singleton (show isGoSpace '"' = false
      from rfl)]
  rw [h2]
  cases hm0 : m with
  | nil => rfl
  | cons c m' =>
    have hhead : isQuoteChar c = false := goodKeyB_head hm hm0
    unfold goTrimQuotes trimBy trimLeftBy
    simp only [List.cons_append, List.dropWhile_cons,
      show isQuoteChar '"' = true from rfl, if_true, hhead,
      Bool.false_eq_true, if_false]
    unfold trimRightBy
    have hrev : ((c :: (m' ++ ['"'])) :
        List Char).reverse = '"' :: (c :: m').reverse := by simp
    rw [hrev]
    rw [List.dropWhile_cons, show isQuoteChar '"' = true from rfl,
      if_pos rfl]
    cases hrv : ((c :: m' : List Char)).reverse with
    | nil => simp at hrv
    | cons d r' =>
      have hd : isQuoteChar d = false :=
        goodKeyB_last hm (show m.reverse = d :: r' by rw [hm0]; exact hrv)
      rw [List.dropWhile_cons, hd]
      simp only [Bool.false_eq_true, if_false]
      rw [← hrv]
      simp

theorem isDashLine_depItemLine {ind : List Char}
    (hind : ∀ c ∈ ind, isIndentChar c = true) (m : List Char) :
    isDashLine (depItemLine ind m) = true := by
  unfold isDashLine
  rw [goTrimSpace_depItemLine hind]
  rfl

theorem isDepsLine_depItemLine {ind : List Char}
    (hind : ∀ c ∈ ind, isIndentChar c = true) (m : List Char) :
    isDepsLine (depItemLine ind m) = false := by
  unfold isDepsLine
  rw [goTrimSpace_depItemLine hind]
  rfl

theorem goTrimSpace_of_isDepsLine {l : List Char} (h : isDepsLine l = true) :
    ∃ t, goTrimSpace l = 'd' :: t := by
  unfold isDepsLine at h
  rcases List.isPrefixOf_iff_prefix.1 h with ⟨t, ht⟩
  exact ⟨"ependencies:".data ++ t, by rw [← ht]; rfl⟩

theorem isDashLine_of_deps {l : List Char} (h : isDepsLine l = true) :
    isDashLine l = false := by
  rcases goTrimSpace_of_isDepsLine h with ⟨t, ht⟩
  unfold isDashLine
  rw [ht]
  rfl

theorem isBlankLine_of_deps {l : List Char} (h : isDepsLine l = true) :
    isBlankLine l = false := by
  rcases goTrimSpace_of_isDepsLine h with ⟨t, ht⟩
  unfold isBlankLine
  rw [ht]
  rfl

theorem isDepsLine_of_dash {l : List Char} (h : isDashLine l = true) :
    isDepsLine l = false := by
  unfold isDashLine at h
  rcases List.isPrefixOf_iff_prefix.1 h with ⟨t, ht⟩
  unfold isDepsLine
  rw [← ht]
  rfl

theorem isDepsLine_of_blank {l : List Char} (h : isBlankLine l = true) :
    isDepsLine l = false := by
  unfold isBlankLine at h
  rw [List.isEmpty_iff] at h
  unfold isDepsLine
  rw [h]
  rfl

theorem skipDepItems_suffix : ∀ r : List (List Char),
    skipDepItems r <:+ r := by
  intro r
  induction r with
  | nil => exact List.suffix_refl []
  | cons l t ih =>
    simp only [skipDepItems]
    by_cases h : skipCond l t = true
    · rw [if_pos h]
      exact ih.trans (List.suffix_cons l t)
    · rw [if_neg h]

theorem rebuildAux_congr (M : List (List Char)) :
    ∀ f₁ f₂ ls, ls.length ≤ f₁ → ls.length ≤ f₂ →
      rebuildAux M f₁ ls = rebuildAux M f₂ ls := by
  intro f₁
  induction f₁ with
  | zero =>
    intro f₂ ls h1 _
    have hls : ls = [] := List.length_eq_zero.1 (Nat.le_zero.1 h1)
    subst hls
    cases f₂ <;> rfl
  | succ f ih =>
    intro f₂ ls h1 h2
    cases ls with
    | nil => cases f₂ <;> rfl
    | cons l t =>
      cases f₂ with
      | zero => simp at h2
      | succ g =>
        simp only [rebuildAux]
        by_cases hd : isDepsLine l = true
        · rw [if_pos hd, if_pos hd]
          have hlen : (skipDepItems t).length ≤ t.length :=
            (skipDepItems_suffix t).length_le
          have h1' : (skipDepItems t).length ≤ f := by
            simp only [List.length_cons] at h1; omega
          have h2' : (skipDepItems t).length ≤ g := by
            simp only [List.length_cons] at h2; omega
          rw [ih g (skipDepItems t) h1' h2']
        · rw [if_neg hd, if_neg hd]
          have h1' : t.length ≤ f := by
            simp only [List.length_cons] at h1; omega
          have h2' : t.length ≤ g := by
            simp only [List.length_cons] at h2; omega
          rw [ih g t h1' h2']

theorem rebuildLines_cons (M : List (List Char)) (line : List Char)
    (rest : List (List Char)) :
    rebuildLines M (line :: rest) =
      if isDepsLine line then
        line :: M.map (depItemLine (indentOf line)) ++
          rebuildLines M (skipDepItems rest)
      else line :: rebuildLines M rest := by
  show rebuildAux M (rest.length + 1) (line :: rest) = _
  simp only [rebuildAux]
  by_cases hd : isDepsLine line = true
  · rw [if_pos hd, if_pos hd]
    rw [rebuildAux_congr M rest.length (skipDepItems rest).length
      (skipDepItems rest) (skipDepItems_suffix rest).length_le le_rfl]
    rfl
  · rw [if_neg hd, if_neg hd]
    rfl

theorem rebuildLines_cons_head (M : List (List Char)) (h : List Char)
    (t : List (List Char)) :
    ∃ rest, rebuildLines M (h :: t) = h :: rest := by
  rw [rebuildLines_cons]
  by_cases hd : isDepsLine h = true
  · rw [if_pos hd]; exact ⟨_, rfl⟩
  · rw [if_neg hd]; exact ⟨_, rfl⟩

theorem rebuildLines_ne_nil (M : List (List Char)) (l : List Char)
    (t : List (List Char)) : rebuildLines M (l :: t) ≠ [] := by
  rcases rebuildLines_cons_head M l t with ⟨rest, hr⟩
  rw [hr]
  simp

theorem skipDepItems_append_dash {B : List (List Char)}
    (hB : ∀ b ∈ B, isDashLine b = true) (X : List (List Char)) :
    skipDepItems (B ++ X) = skipDepItems X := by
  induction B with
  | nil => rfl
  | cons b B' ih =>
    rw [List.cons_append]
    simp only [skipDepItems]
    have hc : skipCond b (B' ++ X) = true := by
      unfold skipCond
      rw [hB b (List.mem_cons_self b B')]
      rfl
    rw [if_pos hc]
    exact ih (fun x hx => hB x (List.mem_cons.2 (Or.inr hx)))

theorem skipCond_false_of_eq {l : List Char} {t : List (List Char)}
    (h : skipDepItems (l :: t) = l :: t) : skipCond l t = false := by
  by_contra hc
  rw [Bool.not_eq_false] at hc
  have heq : skipDepItems (l :: t) = skipDepItems t := by
    simp only [skipDepItems]
    rw [if_pos hc]
  rw [heq] at h
  have hlen := congrArg List.length h
  have hle := (skipDepItems_suffix t).length_le
  simp only [List.length_cons] at hlen
  omega

theorem skipDepItems_idem (r : List (List Char)) :
    skipDepItems (skipDepItems r) = skipDepItems r := by
  induction r with
  | nil => rfl
  | cons l t ih =>
    by_cases h : skipCond l t = true
    · have heq : skipDepItems (l :: t) = skipDepItems t := by
        simp only [skipDepItems]
        rw [if_pos h]
      rw [heq]
      exact ih
    · have heq : skipDepItems (l :: t) = l :: t := by
        simp only [skipDepItems]
        rw [if_neg h]
      rw [heq]
      exact heq

theorem skip_rebuildLines {M : List (List Char)} :
    ∀ r : List (List Char), skipDepItems r = r →
      skipDepItems (rebuildLines M r) = rebuildLines M r := by
  intro r hstable
  cases r with
  | nil => rfl
  | cons l t =>
    have hcond : skipCond l t = false := skipCond_false_of_eq hstable
    have hdash : isDashLine l = false := by
      by_contra hx
      rw [Bool.not_eq_false] at hx
      unfold skipCond at hcond
      rw [hx] at hcond
      simp at hcond
    rw [rebuildLines_cons]
    by_cases hd : isDepsLine l = true
    · rw [if_pos hd]
      have hc : skipCond l (M.map (depItemLine (indentOf l)) ++
          rebuildLines M (skipDepItems t)) = false := by
        unfold skipCond
        rw [isDashLine_of_deps hd, isBlankLine_of_deps hd]
        rfl
      rw [List.cons_append]
      simp only [skipDepItems]
      rw [hc]
      simp
    · rw [if_neg hd]
      have hc : skipCond l (rebuildLines M t) = false := by
        unfold skipCond
        rw [hdash]
        simp only [Bool.false_or]
        by_cases hb : isBlankLine l = true
        · unfold skipCond at hcond
          rw [hdash, hb] at hcond
          simp only [Bool.false_or, Bool.true_and] at hcond
          cases t with
          | nil =>
            rw [show rebuildLines M ([] : List (List Char)) = [] from rfl]
            simp
          | cons h t' =>
            rcases rebuildLines_cons_head M h t' with ⟨rest, hr⟩
            rw [hr, hb]
            simpa using hcond
        · rw [Bool.not_eq_true] at hb
          rw [hb]
          simp
      simp only [skipDepItems]
      rw [hc]
      simp

theorem rebuildLines_idem (M : List (List Char)) :
    ∀ n L, L.length ≤ n →
      rebuildLines M (rebuildLines M L) = rebuildLines M L := by
  intro n
  induction n with
  | zero =>
    intro L h
    have hL : L = [] := List.length_eq_zero.1 (Nat.le_zero.1 h)
    subst hL
    rfl
  | succ n ih =>
    intro L h
    cases L with
    | nil => rfl
    | cons l t =>
      rw [rebuildLines_cons]
      by_cases hd : isDepsLine l = true
      · rw [if_pos hd]
        rw [List.cons_append]
        rw [rebuildLines_cons, if_pos hd]
        have hB : ∀ b ∈ M.map (depItemLine (indentOf l)),
            isDashLine b = true := by
          intro b hb
          rcases List.mem_map.1 hb with ⟨m, _, hm⟩
          rw [← hm]
          exact isDashLine_depItemLine indentOf_indent m
        rw [skipDepItems_append_dash hB]
        have hstab : skipDepItems (rebuildLines M (skipDepItems t)) =
            rebuildLines M (skipDepItems t) :=
          skip_rebuildLines _ (skipDepItems_idem t)
        rw [hstab]
        have hlen : (skipDepItems t).length ≤ n := by
          have := (skipDepItems_suffix t).length_le
          simp only [List.length_cons] at h
          omega
        rw [ih (skipDepItems t) hlen]
        rw [List.cons_append]
      · rw [if_neg hd]
        rw [rebuildLines_cons, if_neg hd]
        have hlen : t.length ≤ n := by
          simp only [List.length_cons] at h
          omega
        rw [ih t hlen]

theorem collectDeps_append_dash {B : List (List Char)}
    (hB : ∀ b ∈ B, isDashLine b = true) (X : List (List Char)) :
    collectDeps (B ++ X) true = B.map extractDep ++ collectDeps X true := by
  induction B with
  | nil => rfl
  | cons b B' ih =>
    have hdash := hB b (List.mem_cons_self b B')
    have hdeps : isDepsLine b = false := isDepsLine_of_dash hdash
    have ih' := ih (fun x hx => hB x (List.mem_cons.2 (Or.inr hx)))
    rw [List.cons_append]
    simp only [collectDeps, hdeps, hdash, Bool.false_eq_true, if_false,
      if_true, List.map_cons, List.cons_append]
    rw [ih']

theorem collectDeps_append_nodeps {A : List (List Char)}
    (hA : ∀ a ∈ A, isDepsLine a = false) (X : List (List Char)) :
    collectDeps (A ++ X) false = collectDeps X false := by
  induction A with
  | nil => rfl
  | cons a A' ih =>
    have hd := hA a (List.mem_cons_self a A')
    rw [List.cons_append]
    simp only [collectDeps, hd, Bool.false_eq_true, if_false]
    exact ih (fun x hx => hA x (List.mem_cons.2 (Or.inr hx)))

theorem mem_collectDeps_skip {x : List Char} :
    ∀ {r : List (List Char)}, x ∈ collectDeps (skipDepItems r) true →
      x ∈ collectDeps r true := by
  intro r
  induction r with
  | nil => intro h; exact h
  | cons l t ih =>
    intro h
    by_cases hc : skipCond l t = true
    · have heq : skipDepItems (l :: t) = skipDepItems t := by
        simp only [skipDepItems]
        rw [if_pos hc]
      rw [heq] at h
      have h2 := ih h
      by_cases hdl : isDashLine l = true
      · have hdeps : isDepsLine l = false := isDepsLine_of_dash hdl
        simp only [collectDeps, hdeps, hdl, Bool.false_eq_true, if_false,
          if_true, List.mem_cons]
        exact Or.inr h2
      · have hbl : isBlankLine l = true := by
          rw [Bool.not_eq_true] at hdl
          unfold skipCond at hc
          rw [hdl] at hc
          simp only [Bool.false_or, Bool.and_eq_true] at hc
          exact hc.1
        have hdeps : isDepsLine l = false := isDepsLine_of_blank hbl
        rw [Bool.not_eq_true] at hdl
        simp only [collectDeps, hdeps, hdl, hbl, Bool.false_eq_true,
          if_false, if_true, Bool.true_or]
        exact h2
    · have heq : skipDepItems (l :: t) = l :: t := by
        simp only [skipDepItems]
        rw [if_neg hc]
      rw [heq] at h
      exact h

theorem any_isDepsLine_rebuild {M : List (List Char)} :
    ∀ {L : List (List Char)}, L.any isDepsLine = true →
      (rebuildLines M L).any isDepsLine = true := by
  intro L
  induction L with
  | nil => intro h; simp at h
  | cons l t ih =>
    intro h
    rw [rebuildLines_cons]
    by_cases hd : isDepsLine l = true
    · rw [if_pos hd]
      simp [List.any_cons, hd]
    · rw [if_neg hd]
      rw [Bool.not_eq_true] at hd
      rw [List.any_cons] at h
      rw [hd] at h
      simp only [Bool.false_or] at h
      rw [List.any_cons, hd]
      simp only [Bool.false_or]
      exact ih h

theorem rebuildLines_nodeps_id {M : List (List Char)} :
    ∀ {A : List (List Char)}, (∀ a ∈ A, isDepsLine a = false) →
      rebuildLines M A = A := by
  intro A
  induction A with
  | nil => intro _; rfl
  | cons a A' ih =>
    intro hA
    rw [rebuildLines_cons]
    rw [if_neg (by rw [hA a (List.mem_cons_self a A')]; exact
      Bool.false_ne_true)]
    rw [ih (fun x hx => hA x (List.mem_cons.2 (Or.inr hx)))]

theorem rebuildLines_append_nodeps {M : List (List Char)}
    {A : List (List Char)} (hA : ∀ a ∈ A, isDepsLine a = false)
    (X : List (List Char)) :
    rebuildLines M (A ++ X) = A ++ rebuildLines M X := by
  induction A with
  | nil => rfl
  | cons a A' ih =>
    rw [List.cons_append, rebuildLines_cons]
    rw [if_neg (by rw [hA a (List.mem_cons_self a A')]; exact
      Bool.false_ne_true)]
    rw [ih (fun x hx => hA x (List.mem_cons.2 (Or.inr hx)))]
    rw [List.cons_append]

instance : IsTotal (List Char) sleC := by
  constructor
  intro a b
  unfold sleC
  by_cases h : goStrLtB b a = true
  · right
    exact goStrLtB_asymm _ _ h
  · left
    rw [Bool.not_eq_true] at h
    exact h

instance : IsTrans (List Char) sleC := by
  constructor
  intro a b c hab hbc
  unfold sleC at hab hbc ⊢
  by_contra hac
  rw [Bool.not_eq_false] at hac
  cases hcase : goStrLtB a b with
  | true =>
    have h2 := goStrLtB_trans _ _ _ hac hcase
    rw [h2] at hbc
    cases hbc
  | false =>
    have heq : a = b := goStrLtB_eq_of_not a b hcase hab
    subst heq
    rw [hac] at hbc
    cases hbc

instance : IsAntisymm (List Char) sleC := by
  constructor
  intro a b hab hba
  unfold sleC at hab hba
  exact goStrLtB_eq_of_not a b hba hab

theorem mem_mergedDepsOf {x : List Char} {E D : List (List Char)} :
    x ∈ mergedDepsOf E D ↔ x ∈ E ∨ x ∈ D := by
  unfold mergedDepsOf
  rw [(List.perm_insertionSort sleC _).mem_iff]
  rw [List.mem_dedup, List.mem_append]

theorem mergedDepsOf_nodup (E D : List (List Char)) :
    (mergedDepsOf E D).Nodup :=
  ((List.perm_insertionSort sleC _).nodup_iff).2 (List.nodup_dedup _)

theorem mergedDepsOf_congr {E₁ E₀ D : List (List Char)}
    (h : ∀ x, x ∈ E₁ ∨ x ∈ D ↔ x ∈ E₀ ∨ x ∈ D) :
    mergedDepsOf E₁ D = mergedDepsOf E₀ D := by
  refine List.eq_of_perm_of_sorted ?_ (List.sorted_insertionSort sleC _)
    (List.sorted_insertionSort sleC _)
  refine (List.perm_ext_iff_of_nodup (mergedDepsOf_nodup _ _)
    (mergedDepsOf_nodup _ _)).2 ?_
  intro x
  rw [mem_mergedDepsOf, mem_mergedDepsOf]
  exact h x

theorem collectDeps_extract {x : List Char} :
    ∀ {L : List (List Char)} {b : Bool}, x ∈ collectDeps L b →
      ∃ l ∈ L, x = extractDep l := by
  intro L
  induction L with
  | nil => intro b h; simp [collectDeps] at h
  | cons l t ih =>
    intro b h
    by_cases hd : isDepsLine l = true
    · have h2 : x ∈ collectDeps t true := by
        simpa only [collectDeps, hd, if_true] using h
      rcases ih h2 with ⟨l', hl', hx⟩
      exact ⟨l', List.mem_cons.2 (Or.inr hl'), hx⟩
    · rw [Bool.not_eq_true] at hd
      cases b with
      | false =>
        have h2 : x ∈ collectDeps t false := by
          simpa only [collectDeps, hd, Bool.false_eq_true, if_false]
            using h
        rcases ih h2 with ⟨l', hl', hx⟩
        exact ⟨l', List.mem_cons.2 (Or.inr hl'), hx⟩
      | true =>
        by_cases hdl : isDashLine l = true
        · have h2 : x = extractDep l ∨ x ∈ collectDeps t true := by
            simpa only [collectDeps, hd, hdl, Bool.false_eq_true, if_false,
              if_true, List.mem_cons] using h
          rcases h2 with h2 | h2
          · exact ⟨l, List.mem_cons_self l t, h2⟩
          · rcases ih h2 with ⟨l', hl', hx⟩
            exact ⟨l', List.mem_cons.2 (Or.inr hl'), hx⟩
        · rw [Bool.not_eq_true] at hdl
          by_cases hbc : (isBlankLine l || isCommentLine l) = true
          · have h2 : x ∈ collectDeps t true := by
              simpa only [collectDeps, hd, hdl, hbc, Bool.false_eq_true,
                if_false, if_true] using h
            rcases ih h2 with ⟨l', hl', hx⟩
            exact ⟨l', List.mem_cons.2 (Or.inr hl'), hx⟩
          · rw [Bool.not_eq_true] at hbc
            exact absurd (by
              simpa only [collectDeps, hd, hdl, hbc, Bool.false_eq_true,
                if_false, if_true] using h) (List.not_mem_nil x)

theorem dash_block {M : List (List Char)} (ind : List Char)
    (hind : ∀ c ∈ ind, isIndentChar c = true) :
    ∀ b ∈ M.map (depItemLine ind), isDashLine b = true := by
  intro b hb
  rcases List.mem_map.1 hb with ⟨m, _, hm⟩
  rw [← hm]
  exact isDashLine_depItemLine hind m

theorem collect_rebuild_true {M : List (List Char)}
    (hM : ∀ m ∈ M, goodKeyB m = true) :
    ∀ n r, r.length ≤ n → ∀ x ∈ collectDeps (rebuildLines M r) true,
      x ∈ M ∨ x ∈ collectDeps r true := by
  intro n
  induction n with
  | zero =>
    intro r hr x hx
    have hr0 : r = [] := List.length_eq_zero.1 (Nat.le_zero.1 hr)
    subst hr0
    simp [collectDeps] at hx
  | succ n ih =>
    intro r hr x hx
    cases r with
    | nil => simp [collectDeps] at hx
    | cons l t =>
      rw [rebuildLines_cons] at hx
      by_cases hd : isDepsLine l = true
      · rw [if_pos hd, List.cons_append] at hx
        have hx2 : x ∈ collectDeps (M.map (depItemLine (indentOf l)) ++
            rebuildLines M (skipDepItems t)) true := by
          simpa only [collectDeps, hd, if_true] using hx
        rw [collectDeps_append_dash (dash_block (indentOf l)
          indentOf_indent)] at hx2
        rw [List.mem_append] at hx2
        rcases hx2 with hx2 | hx2
        · left
          rcases List.mem_map.1 hx2 with ⟨b, hb, hbx⟩
          rcases List.mem_map.1 hb with ⟨m, hm, hmb⟩
          rw [← hbx, ← hmb,
            extractDep_depItemLine indentOf_indent (hM m hm)]
          exact hm
        · have hlen : (skipDepItems t).length ≤ n := by
            have := (skipDepItems_suffix t).length_le
            simp only [List.length_cons] at hr
            omega
          rcases ih (skipDepItems t) hlen x hx2 with h3 | h3
          · exact Or.inl h3
          · right
            have h4 : x ∈ collectDeps t true := mem_collectDeps_skip h3
            simpa only [collectDeps, hd, if_true] using h4
      · rw [if_neg hd] at hx
        rw [Bool.not_eq_true] at hd
        have hlen : t.length ≤ n := by
          simp only [List.length_cons] at hr
          omega
        by_cases hdl : isDashLine l = true
        · have hx2 : x = extractDep l ∨
              x ∈ collectDeps (rebuildLines M t) true := by
            simpa only [collectDeps, hd, hdl, Bool.false_eq_true, if_false,
              if_true, List.mem_cons] using hx
          rcases hx2 with hx2 | hx2
          · right
            simp only [collectDeps, hd, hdl, Bool.false_eq_true, if_false,
              if_true, List.mem_cons]
            exact Or.inl hx2
          · rcases ih t hlen x hx2 with h3 | h3
            · exact Or.inl h3
            · right
              simp only [collectDeps, hd, hdl, Bool.false_eq_true,
                if_false, if_true, List.mem_cons]
              exact Or.inr h3
        · rw [Bool.not_eq_true] at hdl
          by_cases hbc : (isBlankLine l || isCommentLine l) = true
          · have hx2 : x ∈ collectDeps (rebuildLines M t) true := by
              simpa only [collectDeps, hd, hdl, hbc, Bool.false_eq_true,
                if_false, if_true] using hx
            rcases ih t hlen x hx2 with h3 | h3
            · exact Or.inl h3
            · right
              simpa only [collectDeps, hd, hdl, hbc, Bool.false_eq_true,
                if_false, if_true] using h3
          · rw [Bool.not_eq_true] at hbc
            exact absurd (by
              simpa only [collectDeps, hd, hdl, hbc, Bool.false_eq_true,
                if_false, if_true] using hx) (List.not_mem_nil x)

theorem collect_rebuild_false {M : List (List Char)}
    (hM : ∀ m ∈ M, goodKeyB m = true) :
    ∀ r, ∀ x ∈ collectDeps (rebuildLines M r) false,
      x ∈ M ∨ x ∈ collectDeps r false := by
  intro r
  induction r with
  | nil => intro x hx; simp [collectDeps] at hx
  | cons l t ih =>
    intro x hx
    rw [rebuildLines_cons] at hx
    by_cases hd : isDepsLine l = true
    · rw [if_pos hd, List.cons_append] at hx
      have hx2 : x ∈ collectDeps (M.map (depItemLine (indentOf l)) ++
          rebuildLines M (skipDepItems t)) true := by
        simpa only [collectDeps, hd, if_true] using hx
      rw [collectDeps_append_dash (dash_block (indentOf l)
        indentOf_indent)] at hx2
      rw [List.mem_append] at hx2
      rcases hx2 with hx2 | hx2
      · left
        rcases List.mem_map.1 hx2 with ⟨b, hb, hbx⟩
        rcases List.mem_map.1 hb with ⟨m, hm, hmb⟩
        rw [← hbx, ← hmb,
          extractDep_depItemLine indentOf_indent (hM m hm)]
        exact hm
      · rcases collect_rebuild_true hM (skipDepItems t).length
          (skipDepItems t) le_rfl x hx2 with h3 | h3
        · exact Or.inl h3
        · right
          have h4 : x ∈ collectDeps t true := mem_collectDeps_skip h3
          simpa only [collectDeps, hd, if_true] using h4
    · rw [if_neg hd] at hx
      rw [Bool.not_eq_true] at hd
      have hx2 : x ∈ collectDeps (rebuildLines M t) false := by
        simpa only [collectDeps, hd, Bool.false_eq_true, if_false] using hx
      rcases ih x hx2 with h3 | h3
      · exact Or.inl h3
      · right
        simpa only [collectDeps, hd, Bool.false_eq_true, if_false] using h3

theorem merged_mem_collect_rebuild {M : List (List Char)}
    (hM : ∀ m ∈ M, goodKeyB m = true) :
    ∀ {L : List (List Char)}, L.any isDepsLine = true →
      ∀ m ∈ M, m ∈ collectDeps (rebuildLines M L) false := by
  intro L
  induction L with
  | nil => intro h; simp at h
  | cons l t ih =>
    intro hany m hm
    rw [rebuildLines_cons]
    by_cases hd : isDepsLine l = true
    · rw [if_pos hd, List.cons_append]
      simp only [collectDeps, hd, if_true]
      rw [collectDeps_append_dash (dash_block (indentOf l)
        indentOf_indent)]
      rw [List.mem_append]
      left
      rw [List.map_map]
      refine List.mem_map.2 ⟨m, hm, ?_⟩
      exact extractDep_depItemLine indentOf_indent (hM m hm)
    · rw [if_neg hd]
      rw [Bool.not_eq_true] at hd
      rw [List.any_cons, hd] at hany
      simp only [Bool.false_or] at hany
      have h2 := ih hany m hm
      simpa only [collectDeps, hd, Bool.false_eq_true, if_false] using h2

theorem no_newline_rebuild {M : List (List Char)}
    (hM : ∀ m ∈ M, goodKeyB m = true) :
    ∀ n L, L.length ≤ n → (∀ l ∈ L, '\n' ∉ l) →
      ∀ l ∈ rebuildLines M L, '\n' ∉ l := by
  intro n
  induction n with
  | zero =>
    intro L hL _ l hl
    have hL0 : L = [] := List.length_eq_zero.1 (Nat.le_zero.1 hL)
    subst hL0
    rw [show rebuildLines M ([] : List (List Char)) = [] from rfl] at hl
    simp at hl
  | succ n ih =>
    intro L hL hnl l hl
    cases L with
    | nil =>
      rw [show rebuildLines M ([] : List (List Char)) = [] from rfl] at hl
      simp at hl
    | cons a t =>
      rw [rebuildLines_cons] at hl
      by_cases hd : isDepsLine a = true
      · rw [if_pos hd, List.cons_append, List.mem_cons] at hl
        rcases hl with hl | hl
        · rw [hl]
          exact hnl a (List.mem_cons_self a t)
        · rw [List.mem_append] at hl
          rcases hl with hl | hl
          · rcases List.mem_map.1 hl with ⟨m, hm, hml⟩
            rw [← hml]
            unfold depItemLine
            intro hmem
            simp only [List.mem_append, List.mem_cons] at hmem
            rcases hmem with ((h1 | h1) | h1) | h1
            · exact hnl a (List.mem_cons_self a t)
                ((List.takeWhile_sublist _).subset h1)
            · revert h1
              decide
            · exact absurd h1 (goodKeyB_newline (hM m hm))
            · revert h1
              decide
          · have hlen : (skipDepItems t).length ≤ n := by
              have := (skipDepItems_suffix t).length_le
              simp only [List.length_cons] at hL
              omega
            refine ih (skipDepItems t) hlen ?_ l hl
            intro x hx
            exact hnl x (List.mem_cons.2 (Or.inr
              ((skipDepItems_suffix t).subset hx)))
      · rw [if_neg hd, List.mem_cons] at hl
        rcases hl with hl | hl
        · rw [hl]
          exact hnl a (List.mem_cons_self a t)
        · have hlen : t.length ≤ n := by
            simp only [List.length_cons] at hL
            omega
          refine ih t hlen ?_ l hl
          intro x hx
          exact hnl x (List.mem_cons.2 (Or.inr hx))

theorem updateAppYaml_eq (content : List Char) (D : List (List Char)) :
    updateAppYaml content D =
      joinWith '\n'
        (if !(splitOnChar '\n' content).any isDepsLine &&
            !(mergedDepsOf (collectDeps (splitOnChar '\n' content) false)
              D).isEmpty then
          rebuildLines (mergedDepsOf (collectDeps (splitOnChar '\n'
            content) false) D) (splitOnChar '\n' content) ++
            depsHeader :: (mergedDepsOf (collectDeps (splitOnChar '\n'
              content) false) D).map (depItemLine [])
        else
          rebuildLines (mergedDepsOf (collectDeps (splitOnChar '\n'
            content) false) D) (splitOnChar '\n' content)) := rfl

theorem updateAppYaml_found {content : List Char} {D : List (List Char)}
    (h : (splitOnChar '\n' content).any isDepsLine = true) :
    updateAppYaml content D = joinWith '\n'
      (rebuildLines (mergedDepsOf (collectDeps (splitOnChar '\n' content)
        false) D) (splitOnChar '\n' content)) := by
  rw [updateAppYaml_eq, h]
  simp only [Bool.not_true, Bool.false_and, Bool.false_eq_true, if_false]

theorem nodeps_of_any_false {L : List (List Char)}
    (h : L.any isDepsLine = false) : ∀ a ∈ L, isDepsLine a = false := by
  intro a ha
  by_contra hx
  rw [Bool.not_eq_false] at hx
  have h2 : L.any isDepsLine = true := List.any_eq_true.2 ⟨a, ha, hx⟩
  rw [h2] at h
  cases h

theorem updateAppYaml_notfound {content : List Char} {D : List (List Char)}
    (h : (splitOnChar '\n' content).any isDepsLine = false)
    (hne : (mergedDepsOf (collectDeps (splitOnChar '\n' content) false)
      D).isEmpty = false) :
    updateAppYaml content D = joinWith '\n'
      (splitOnChar '\n' content ++ depsHeader ::
        (mergedDepsOf (collectDeps (splitOnChar '\n' content) false)
          D).map (depItemLine [])) := by
  rw [updateAppYaml_eq, h, hne]
  simp only [Bool.not_false, Bool.and_self, if_true]
  rw [rebuildLines_nodeps_id (nodeps_of_any_false h)]

theorem updateAppYaml_nochange {content : List Char} {D : List (List Char)}
    (h : (splitOnChar '\n' content).any isDepsLine = false)
    (he : (mergedDepsOf (collectDeps (splitOnChar '\n' content) false)
      D).isEmpty = true) :
    updateAppYaml content D = content := by
  rw [updateAppYaml_eq, h, he]
  simp only [Bool.not_false, Bool.not_true, Bool.true_and, Bool.and_false,
    Bool.false_eq_true, if_false]
  rw [rebuildLines_nodeps_id (nodeps_of_any_false h)]
  exact joinWith_splitOnChar '\n' content

set_option maxHeartbeats 1000000 in
theorem collect_append_section {L M : List (List Char)}
    (hL : ∀ a ∈ L, isDepsLine a = false)
    (hM : ∀ m ∈ M, goodKeyB m = true) :
    ∀ x, x ∈ collectDeps (L ++ depsHeader :: M.map (depItemLine []))
      false ↔ x ∈ M := by
  intro x
  rw [collectDeps_append_nodeps hL]
  have hhd : isDepsLine depsHeader = true := by decide
  simp only [collectDeps, hhd, if_true]
  rw [← List.append_nil (M.map (depItemLine []))]
  rw [collectDeps_append_dash (dash_block [] (fun c hc => absurd hc
    (List.not_mem_nil c)))]
  rw [show collectDeps [] true = [] from rfl]
  rw [List.append_nil, List.map_map]
  constructor
  · intro hx
    rcases List.mem_map.1 hx with ⟨m, hm, hxm⟩
    have hext : extractDep (depItemLine [] m) = m :=
      extractDep_depItemLine (fun c hc => absurd hc (List.not_mem_nil c))
        (hM m hm)
    rw [show (extractDep ∘ depItemLine []) m =
      extractDep (depItemLine [] m) from rfl, hext] at hxm
    rw [← hxm]
    exact hm
  · intro hx
    refine List.mem_map.2 ⟨x, hx, ?_⟩
    show extractDep (depItemLine [] x) = x
    exact extractDep_depItemLine (fun c hc => absurd hc
      (List.not_mem_nil c)) (hM x hx)

theorem rebuild_append_section {L M : List (List Char)}
    (hL : ∀ a ∈ L, isDepsLine a = false) :
    rebuildLines M (L ++ depsHeader :: M.map (depItemLine [])) =
      L ++ depsHeader :: M.map (depItemLine []) := by
  rw [rebuildLines_append_nodeps hL]
  rw [rebuildLines_cons]
  rw [if_pos (show isDepsLine depsHeader = true by decide)]
  have hskip : skipDepItems (M.map (depItemLine [])) = [] := by
    rw [← List.append_nil (M.map (depItemLine []))]
    rw [skipDepItems_append_dash (dash_block [] (fun c hc => absurd hc
      (List.not_mem_nil c)))]
    rfl
  rw [hskip]
  rw [show rebuildLines M [] = [] from rfl]
  rw [show indentOf depsHeader = [] from rfl]
  simp

theorem no_newline_append_section {L M : List (List Char)}
    (hnl : ∀ l ∈ L, '\n' ∉ l) (hM : ∀ m ∈ M, goodKeyB m = true) :
    ∀ l ∈ L ++ depsHeader :: M.map (depItemLine []), '\n' ∉ l := by
  intro l hl
  rw [List.mem_append, List.mem_cons] at hl
  rcases hl with hl | hl | hl
  · exact hnl l hl
  · rw [hl]
    decide
  · rcases List.mem_map.1 hl with ⟨m, hm, hml⟩
    rw [← hml]
    unfold depItemLine
    intro hmem
    simp only [List.nil_append, List.mem_append] at hmem
    rcases hmem with (h1 | h1) | h1
    · revert h1
      decide
    · exact absurd h1 (goodKeyB_newline (hM m hm))
    · revert h1
      decide

/-- C8 counterexample. The sync write is not idempotent for every
discovered dependency set: syncing the key `x"` (which ends in a quote
character) into an `app.yaml` writes the item `- "x""`, which the second
run's collection pass re-parses (`strings.Trim(dep, "\"'")`) as the
different key `x`; the merged set grows and the second run changes the
file. -/
theorem updateAppYaml_not_idempotent :
    updateAppYaml (updateAppYaml "dependencies:".data ["x\"".data])
      ["x\"".data] ≠
      updateAppYaml "dependencies:".data ["x\"".data] := by decide

/-- C8 (amended). The `app.yaml` dependency sync is idempotent — running
`updateAppYamlDependencies` a second time with the same discovered set
leaves the file contents byte-identical — for every file content,
provided each discovered key contains no newline and neither starts nor
ends with a quote character (`"` or `'`); keys extracted from the
existing file always have this shape, and for such keys the second run's
collection, merge and rebuild reproduce the first run's output
exactly. -/
theorem updateAppYaml_idem (content : List Char) (D : List (List Char))
    (hD : ∀ k ∈ D, goodKeyB k = true) :
    updateAppYaml (updateAppYaml content D) D =
      updateAppYaml content D := by
  have hnl0 : ∀ l ∈ splitOnChar '\n' content, '\n' ∉ l :=
    fun l hl => mem_splitOnChar_not_mem hl
  have hMgood : ∀ m ∈ mergedDepsOf
      (collectDeps (splitOnChar '\n' content) false) D,
      goodKeyB m = true := by
    intro m hm
    rcases mem_mergedDepsOf.1 hm with hm' | hm'
    · rcases collectDeps_extract hm' with ⟨l, hl, hx⟩
      rw [hx]
      exact goodKeyB_extractDep (hnl0 l hl)
    · exact hD m hm'
  by_cases hfound : (splitOnChar '\n' content).any isDepsLine = true
  · rw [updateAppYaml_found hfound]
    have hne : rebuildLines (mergedDepsOf (collectDeps (splitOnChar '\n'
        content) false) D) (splitOnChar '\n' content) ≠ [] := by
      cases hsp : splitOnChar '\n' content with
      | nil => exact absurd hsp (splitOnChar_ne_nil '\n' content)
      | cons a t => exact rebuildLines_ne_nil _ a t
    have hnl1 : ∀ l ∈ rebuildLines (mergedDepsOf (collectDeps
        (splitOnChar '\n' content) false) D) (splitOnChar '\n' content),
        '\n' ∉ l :=
      no_newline_rebuild hMgood (splitOnChar '\n' content).length _
        le_rfl hnl0
    have hsplit : splitOnChar '\n' (joinWith '\n' (rebuildLines
        (mergedDepsOf (collectDeps (splitOnChar '\n' content) false) D)
        (splitOnChar '\n' content))) =
        rebuildLines (mergedDepsOf (collectDeps (splitOnChar '\n' content)
          false) D) (splitOnChar '\n' content) :=
      splitOnChar_joinWith hne hnl1
    have hfound1 : (splitOnChar '\n' (joinWith '\n' (rebuildLines
        (mergedDepsOf (collectDeps (splitOnChar '\n' content) false) D)
        (splitOnChar '\n' content)))).any isDepsLine = true := by
      rw [hsplit]
      exact any_isDepsLine_rebuild hfound
    rw [updateAppYaml_found hfound1]
    rw [hsplit]
    have hMeq : mergedDepsOf (collectDeps (rebuildLines (mergedDepsOf
        (collectDeps (splitOnChar '\n' content) false) D)
        (splitOnChar '\n' content)) false) D =
        mergedDepsOf (collectDeps (splitOnChar '\n' content) false) D := by
      refine mergedDepsOf_congr ?_
      intro x
      constructor
      · rintro (hx | hx)
        · rcases collect_rebuild_false hMgood (splitOnChar '\n' content)
            x hx with h3 | h3
          · exact mem_mergedDepsOf.1 h3
          · exact Or.inl h3
        · exact Or.inr hx
      · rintro (hx | hx)
        · exact Or.inl (merged_mem_collect_rebuild hMgood hfound x
            (mem_mergedDepsOf.2 (Or.inl hx)))
        · exact Or.inr hx
    rw [hMeq]
    rw [rebuildLines_idem (mergedDepsOf (collectDeps (splitOnChar '\n'
      content) false) D) (splitOnChar '\n' content).length
      (splitOnChar '\n' content) le_rfl]
  · rw [Bool.not_eq_true] at hfound
    cases hMe : (mergedDepsOf (collectDeps (splitOnChar '\n' content)
        false) D).isEmpty with
    | true =>
      rw [updateAppYaml_nochange hfound hMe]
      exact updateAppYaml_nochange hfound hMe
    | false =>
      rw [updateAppYaml_notfound hfound hMe]
      have hnodeps : ∀ a ∈ splitOnChar '\n' content,
          isDepsLine a = false := nodeps_of_any_false hfound
      have hnl1 := no_newline_append_section (M := mergedDepsOf
        (collectDeps (splitOnChar '\n' content) false) D) hnl0 hMgood
      have hne1 : splitOnChar '\n' content ++ depsHeader ::
          (mergedDepsOf (collectDeps (splitOnChar '\n' content) false)
            D).map (depItemLine []) ≠ [] := by simp
      have hsplit := splitOnChar_joinWith hne1 hnl1
      have hf2 : (splitOnChar '\n' (joinWith '\n' (splitOnChar '\n'
          content ++ depsHeader :: (mergedDepsOf (collectDeps
            (splitOnChar '\n' content) false) D).map
            (depItemLine [])))).any isDepsLine = true := by
        rw [hsplit]
        refine List.any_eq_true.2 ⟨depsHeader, ?_, by decide⟩
        simp
      rw [updateAppYaml_found hf2]
      rw [hsplit]
      have hMeq : mergedDepsOf (collectDeps (splitOnChar '\n' content ++
          depsHeader :: (mergedDepsOf (collectDeps (splitOnChar '\n'
            content) false) D).map (depItemLine [])) false) D =
          mergedDepsOf (collectDeps (splitOnChar '\n' content) false)
            D := by
        refine mergedDepsOf_congr ?_
        intro x
        rw [collect_append_section hnodeps hMgood x]
        rw [mem_mergedDepsOf]
        constructor
        · rintro ((hx | hx) | hx)
          · exact Or.inl hx
          · exact Or.inr hx
          · exact Or.inr hx
        · rintro (hx | hx)
          · exact Or.inl (Or.inl hx)
          · exact Or.inr hx
      rw [hMeq]
      rw [rebuild_append_section hnodeps]

theorem updateAppYaml_idem_witness :
    (∀ k ∈ [('c' :: 'o' :: 'r' :: 'e' :: []), "shared/db".data],
      goodKeyB k = true) ∧
    updateAppYaml (updateAppYaml
        "name: app\ndependencies:\n  - \"a\"\nother: 1".data
        [('c' :: 'o' :: 'r' :: 'e' :: []), "shared/db".data])
      [('c' :: 'o' :: 'r' :: 'e' :: []), "shared/db".data] =
    updateAppYaml "name: app\ndependencies:\n  - \"a\"\nother: 1".data
      [('c' :: 'o' :: 'r' :: 'e' :: []), "shared/db".data] :=
  ⟨by decide, updateAppYaml_idem _ _ (by decide)⟩

example :
    updateAppYaml "dependencies:".data ["x\"".data] =
      "dependencies:\n  - \"x\"\"".data := by rfl

example :
    updateAppYaml "dependencies:\n  - \"x\"\"".data ["x\"".data] =
      "dependencies:\n  - \"x\"\n  - \"x\"\"".data := by rfl

example :
    updateAppYaml
      (updateAppYaml "name: p\ndependencies:\n  - \"a\"\nother: 1".data
        ["b".data]) ["b".data] =
    updateAppYaml "name: p\ndependencies:\n  - \"a\"\nother: 1".data
      ["b".data] := by rfl

end Duck
